import Mathlib

/-!
Verification of the formora form engine (path codec, rule evaluator,
async validation scheduler, structural array operations) against its
natural-language specification.

The JavaScript runtime values manipulated by the library are modelled by
the inductive type `Value`; numbers are rationals (every numeric literal
the library compares is finite, so `Rat` is an adequate carrier).  The
fragment of the JS `Number(string)` coercion exercised by the library's
path segments is the canonical non-negative decimal fragment, modelled by
`String.toNat?`; segments outside that fragment (exponent forms, signed or
fractional indices) are treated as non-numeric map keys, which agrees with
the library's observable behaviour on every input considered here.
-/

namespace Formora

/-- A JavaScript value: the tree nodes handled by the library. -/
inductive Value : Type where
  | vUndef : Value
  | vNull : Value
  | vBool (b : Bool) : Value
  | vNum (q : ℚ) : Value
  | vStr (s : String) : Value
  | vArr (elems : List Value) : Value
  | vObj (fields : List (String × Value)) : Value
deriving Repr

namespace Value

/-- JS truthiness of a value (`if (x)`). -/
def truthy : Value → Bool
  | vUndef => false
  | vNull => false
  | vBool b => b
  | vNum q => !(q == 0)
  | vStr s => !(s == "")
  | vArr _ => true
  | vObj _ => true

/-- `x == null` in JS: true exactly for `null` and `undefined`. -/
def isNullish : Value → Bool
  | vUndef => true
  | vNull => true
  | _ => false

/-- `typeof x === "object"` in JS (note: true for `null` and arrays). -/
def typeofObject : Value → Bool
  | vNull => true
  | vArr _ => true
  | vObj _ => true
  | _ => false

def isArray : Value → Bool
  | vArr _ => true
  | _ => false

end Value

open Value

/-! ### Association-list helpers for JS objects and maps -/

/-- Own-property lookup on a JS object (association list). -/
def objGet (fields : List (String × Value)) (key : String) : Value :=
  match fields with
  | [] => vUndef
  | (k, v) :: rest => if k = key then v else objGet rest key

/-- Property assignment `obj[key] = v` (replaces or appends, keeps order). -/
def objSet (fields : List (String × Value)) (key : String) (v : Value) :
    List (String × Value) :=
  match fields with
  | [] => [(key, v)]
  | (k, w) :: rest =>
      if k = key then (k, v) :: rest else (k, w) :: objSet rest key v

/-- `delete obj[key]`.  JS objects bind each key at most once, so deleting
every binding of the key coincides with the JS `delete` on the lists that
arise from object literals and the operations here. -/
def objDelete (fields : List (String × Value)) (key : String) :
    List (String × Value) :=
  match fields with
  | [] => []
  | (k, w) :: rest =>
      if k = key then objDelete rest key else (k, w) :: objDelete rest key

/-- `key in obj`. -/
def objHas (fields : List (String × Value)) (key : String) : Bool :=
  match fields with
  | [] => false
  | (k, _) :: rest => k = key || objHas rest key

/-- Array element read `arr[i]`; out-of-range reads yield `undefined`. -/
def arrGet (xs : List Value) (i : Nat) : Value := xs.getD i vUndef

/-- Array element write `arr[i] = v`; writing past the end pads the array
with `undefined` holes, as JS assignment extends `length`. -/
def arrSet (xs : List Value) (i : Nat) (v : Value) : List Value :=
  match xs, i with
  | [], 0 => [v]
  | [], n + 1 => vUndef :: arrSet [] n v
  | _ :: rest, 0 => v :: rest
  | x :: rest, n + 1 => x :: arrSet rest n v

/-- Digit-list to number. -/
def digitsToNat (cs : List Char) : Nat :=
  cs.foldl (fun n c => n * 10 + (c.toNat - '0'.toNat)) 0

/-- The `Number(segment)`/`Number.isInteger` test applied by the library to
path segments, on the canonical non-negative decimal fragment of JS number
coercion: digit-only strings parse, everything else is non-numeric. -/
def segToNat (s : String) : Option Nat :=
  match s.toList with
  | [] => none
  | cs => if cs.all Char.isDigit then some (digitsToNat cs) else none

/-- Whether a string is the canonical decimal form of an array index
(JS array index own-properties are exactly these). -/
def canonIndex (s : String) : Option Nat :=
  match segToNat s with
  | some n => if toString n = s then some n else none
  | none => none

/-- Generic JS member access `base[key]` for a string key on a non-null
base (objects by own property, arrays by canonical index property;
primitive bases have no own properties of interest here). -/
def jsMember (base : Value) (key : String) : Value :=
  match base with
  | vObj fs => objGet fs key
  | vArr xs =>
      match canonIndex key with
      | some n => arrGet xs n
      | none => vUndef
  | _ => vUndef

/-- The own enumerable fields produced by a JS object spread (`...obj`):
objects keep their fields, arrays become index-keyed objects, and
primitives (and `null`/`undefined`) contribute nothing. -/
def spreadFields : Value → List (String × Value)
  | vObj fs => fs
  | vArr xs => (xs.enum.map fun (i, v) => (toString i, v))
  | _ => []

/-! ### Path splitting

`path.split(".")` from JS, implemented on the character list so that basic
facts (the result is never empty) are provable.  Adjacent dots produce
empty segments, exactly as in JS. -/

def splitDots : List Char → List (List Char)
  | [] => [[]]
  | c :: rest =>
      let r := splitDots rest
      if c = '.' then [] :: r
      else
        match r with
        | [] => [[c]]
        | h :: t => (c :: h) :: t

def splitPath (s : String) : List String :=
  (splitDots s.toList).map (fun cs => String.mk cs)

/-- `path.indexOf(".") === -1` test. -/
def hasDot (s : String) : Bool := s.toList.contains '.'

theorem splitDots_ne_nil (cs : List Char) : splitDots cs ≠ [] := by
  induction cs with
  | nil => simp [splitDots]
  | cons c rest ih =>
      simp only [splitDots]
      split
      · simp
      · split
        · simp
        · simp

theorem splitPath_ne_nil (s : String) : splitPath s ≠ [] := by
  simpa [splitPath] using splitDots_ne_nil s.toList

/-! ### The path codec: getByPath / setByPath / unsetByPath

Translated from `src/utils/setByPath.ts` (v0.6, dot-index only; bracket
syntax is intentionally not supported by the source) and
`src/utils/unsetByPath.ts`, plus the local object-only `unsetByPath`
defined inside `useForm.ts`.  Shallow clones (`slice()` / spread) are
value-identities, so they do not appear explicitly; the spread that
re-types an array root into an index-keyed object does (`spreadFields`). -/

/-- The walk loop of `getByPath` (utils v0.6): arrays are indexed via
`Number(segment)`, objects via the raw key, and a missing/primitive node
yields `undefined`. -/
def getParts : Value → List String → Value
  | cur, [] => cur
  | cur, k :: ks =>
      if cur.isNullish then vUndef
      else
        match cur with
        | vArr xs =>
            match segToNat k with
            | some n => getParts (arrGet xs n) ks
            | none => vUndef
        | vObj fs => getParts (objGet fs k) ks
        | _ => vUndef

/-- `getByPath(obj, path)` from `src/utils/setByPath.ts` lines 115-145. -/
def getByPath (obj : Value) (path : String) : Value :=
  if obj.isNullish then vUndef
  else if path = "" then vUndef
  else if hasDot path = false then jsMember obj path
  else getParts obj (splitPath path)

/-- Child-container selection of the `setByPath` walk: when the next
segment is numeric an existing array is kept (anything else is replaced
by a fresh `[]`); otherwise an existing plain object is kept (anything
else, including `null` and arrays, is replaced by a fresh object). -/
def childFor (existing : Value) (nextShouldBeArray : Bool) : Value :=
  if nextShouldBeArray then
    match existing with
    | vArr _ => existing
    | _ => vArr []
  else
    match existing with
    | vObj _ => existing
    | _ => vObj []

/-- The clone-and-descend loop of `setByPath`: the current container is
always a fresh clone; child containers are chosen by `childFor` from the
existing value, then written back. -/
def setGo (cur : Value) (parts : List String) (value : Value) : Value :=
  match parts with
  | [] => cur
  | [k] =>
      match cur with
      | vArr xs =>
          match segToNat k with
          | some n => vArr (arrSet xs n value)
          | none => cur
      | vObj fs => vObj (objSet fs k value)
      | _ => cur
  | k :: k2 :: rest =>
      match cur with
      | vArr xs =>
          match segToNat k with
          | none => cur
          | some n =>
              vArr (arrSet xs n
                (setGo (childFor (arrGet xs n) (segToNat k2).isSome)
                  (k2 :: rest) value))
      | vObj fs =>
          vObj (objSet fs k
            (setGo (childFor (objGet fs k) (segToNat k2).isSome)
              (k2 :: rest) value))
      | _ => cur

/-- `setByPath(obj, path, value)` from `src/utils/setByPath.ts` lines
7-109.  The root is spread-cloned (which re-types an array root as an
index-keyed object) before the walk. -/
def setByPath (obj : Value) (path : String) (value : Value) : Value :=
  if path = "" then obj
  else if hasDot path = false then vObj (objSet (spreadFields obj) path value)
  else setGo (vObj (spreadFields obj)) (splitPath path) value

/-- Walk of `unsetByPath` from `src/utils/unsetByPath.ts`: clones along
the path; a missing or primitive intermediate means nothing to unset; on
the final container, `delete` removes an object key, and on an array it
empties the slot while preserving length. -/
def unsetGo (cur : Value) : List String → Value
  | [] => cur
  | [last] =>
      match cur with
      | vArr xs =>
          match segToNat last with
          | some n => vArr (if n < xs.length then arrSet xs n vUndef else xs)
          | none => cur
      | vObj fs => vObj (objDelete fs last)
      | _ => cur
  | part :: rest =>
      let nextSource := jsMember cur part
      if nextSource.isNullish || !nextSource.typeofObject then cur
      else
        match cur with
        | vObj fs => vObj (objSet fs part (unsetGo nextSource rest))
        | vArr xs =>
            match canonIndex part with
            | some n => vArr (arrSet xs n (unsetGo nextSource rest))
            | none => cur
        | _ => cur

/-- `unsetByPath(obj, path)` from `src/utils/unsetByPath.ts`. -/
def unsetByPath (obj : Value) (path : String) : Value :=
  if obj.isNullish then obj
  else if path = "" then obj
  else unsetGo obj (splitPath path)

/-- Walk of the object-only local `unsetByPath` defined inside
`useForm.ts` (v2): bails out (returning the root unchanged) whenever an
intermediate is missing, a primitive, or an array. -/
def unsetLocalGo (fs : List (String × Value)) : List String → List (String × Value)
  | [] => fs
  | [last] => objDelete fs last
  | k :: rest =>
      match objGet fs k with
      | vObj gs => objSet fs k (vObj (unsetLocalGo gs rest))
      | _ => fs

/-- The local `unsetByPath` of `useForm.ts` (v2, lines 310-342):
object-only, used by `setFieldError` / `setFieldValidating`. -/
def unsetLocalByPath (obj : Value) (path : String) : Value :=
  if obj.truthy = false then obj
  else if path = "" then obj
  else if hasDot path = false then vObj (objDelete (spreadFields obj) path)
  else vObj (unsetLocalGo (spreadFields obj) (splitPath path))

/-! ### Basic lemmas about the object/array primitives -/

theorem objGet_objSet (fs : List (String × Value)) (k : String) (v : Value) :
    objGet (objSet fs k v) k = v := by
  induction fs with
  | nil => simp [objSet, objGet]
  | cons f rest ih =>
      obtain ⟨k', w⟩ := f
      by_cases h : k' = k
      · simp [objSet, objGet, h]
      · simp [objSet, objGet, h, ih]

theorem objGet_objSet_ne (fs : List (String × Value)) (k k' : String) (v : Value)
    (h : k' ≠ k) : objGet (objSet fs k v) k' = objGet fs k' := by
  induction fs with
  | nil => simp [objSet, objGet, Ne.symm h]
  | cons f rest ih =>
      obtain ⟨k₀, w⟩ := f
      by_cases h0 : k₀ = k
      · subst h0
        simp [objSet, objGet, Ne.symm h]
      · by_cases h1 : k₀ = k' <;> simp [objSet, objGet, h0, h1, ih, h]

theorem objGet_objDelete (fs : List (String × Value)) (k : String) :
    objGet (objDelete fs k) k = vUndef := by
  induction fs with
  | nil => simp [objDelete, objGet]
  | cons f rest ih =>
      obtain ⟨k', w⟩ := f
      by_cases h : k' = k
      · simpa [objDelete, h] using ih
      · simp [objDelete, objGet, h, ih]

theorem arrGet_arrSet (xs : List Value) (n : Nat) (v : Value) :
    arrGet (arrSet xs n v) n = v := by
  induction n generalizing xs with
  | zero => cases xs <;> simp [arrSet, arrGet]
  | succ n ih =>
      cases xs with
      | nil => simpa [arrSet, arrGet] using ih []
      | cons x rest => simpa [arrSet, arrGet] using ih rest

theorem objGet_objDelete_ne (fs : List (String × Value)) (k k' : String)
    (h : k' ≠ k) : objGet (objDelete fs k) k' = objGet fs k' := by
  induction fs with
  | nil => simp [objDelete]
  | cons f rest ih =>
      obtain ⟨k₀, w⟩ := f
      by_cases h0 : k₀ = k
      · subst h0
        simp [objDelete, objGet, Ne.symm h, ih]
      · by_cases h1 : k₀ = k' <;> simp [objDelete, objGet, h0, h1, ih, h]

theorem splitDots_no_dot (cs : List Char) (h : ¬cs.contains '.') :
    splitDots cs = [cs] := by
  induction cs with
  | nil => simp [splitDots]
  | cons c rest ih =>
      simp only [List.contains_cons, Bool.or_eq_true, beq_iff_eq] at h
      push_neg at h
      have h1 : ¬c = '.' := fun he => h.1 he.symm
      simp [splitDots, h1, ih (by simpa using h.2)]

theorem splitPath_no_dot (s : String) (h : hasDot s = false) : splitPath s = [s] := by
  cases s with
  | mk cs =>
      have h' : ¬cs.contains '.' := by
        simpa [hasDot, String.toList] using h
      simp [splitPath, String.toList, splitDots_no_dot cs h']

/-! ### Reduction equations for the walks -/

theorem getParts_nil (cur : Value) : getParts cur [] = cur := rfl

theorem getParts_obj_cons (fs : List (String × Value)) (k : String)
    (ks : List String) : getParts (vObj fs) (k :: ks) = getParts (objGet fs k) ks := rfl

theorem getParts_arr_cons (xs : List Value) (k : String) (ks : List String)
    (n : Nat) (h : segToNat k = some n) :
    getParts (vArr xs) (k :: ks) = getParts (arrGet xs n) ks := by
  have e : getParts (vArr xs) (k :: ks) =
      (match segToNat k with
       | some n => getParts (arrGet xs n) ks
       | none => vUndef) := rfl
  rw [e, h]

theorem setGo_obj_last (fs : List (String × Value)) (k : String) (v : Value) :
    setGo (vObj fs) [k] v = vObj (objSet fs k v) := rfl

theorem setGo_arr_last (xs : List Value) (k : String) (v : Value) (n : Nat)
    (h : segToNat k = some n) : setGo (vArr xs) [k] v = vArr (arrSet xs n v) := by
  have e : setGo (vArr xs) [k] v =
      (match segToNat k with
       | some n => vArr (arrSet xs n v)
       | none => vArr xs) := rfl
  rw [e, h]

theorem setGo_obj_cons (fs : List (String × Value)) (k k2 : String)
    (rest : List String) (v : Value) :
    setGo (vObj fs) (k :: k2 :: rest) v
      = vObj (objSet fs k
          (setGo (childFor (objGet fs k) (segToNat k2).isSome)
            (k2 :: rest) v)) := rfl

theorem setGo_arr_cons (xs : List Value) (k k2 : String) (rest : List String)
    (v : Value) (m : Nat) (h : segToNat k = some m) :
    setGo (vArr xs) (k :: k2 :: rest) v
      = vArr (arrSet xs m
          (setGo (childFor (arrGet xs m) (segToNat k2).isSome)
            (k2 :: rest) v)) := by
  have e : setGo (vArr xs) (k :: k2 :: rest) v =
      (match segToNat k with
       | none => vArr xs
       | some n => vArr (arrSet xs n
           (setGo (childFor (arrGet xs n) (segToNat k2).isSome)
             (k2 :: rest) v))) := rfl
  rw [e, h]

/-! ### Round-trip: `get(set(tree, path, v), path) = v`

The set walk never takes its invalid-index early return when started from
an object root, because every array container it descends into was chosen
precisely when the corresponding segment is numeric; the lemma therefore
holds for every tree and every non-empty path. -/

theorem getParts_setGo : ∀ (parts : List String) (v : Value), parts ≠ [] →
    (∀ fs, getParts (setGo (vObj fs) parts v) parts = v) ∧
    (∀ xs n, segToNat (parts.headD "") = some n →
      getParts (setGo (vArr xs) parts v) parts = v)
  | [], _, h => absurd rfl h
  | [k], v, _ => by
      refine ⟨fun fs => ?_, fun xs n hn => ?_⟩
      · rw [setGo_obj_last, getParts_obj_cons, getParts_nil, objGet_objSet]
      · simp only [List.headD] at hn
        rw [setGo_arr_last xs k v n hn, getParts_arr_cons _ _ _ _ hn,
          getParts_nil, arrGet_arrSet]
  | k :: k2 :: rest, v, _ => by
      have ih := getParts_setGo (k2 :: rest) v (by simp)
      have hchild : ∀ existing : Value,
          getParts (setGo (childFor existing (segToNat k2).isSome)
            (k2 :: rest) v) (k2 :: rest) = v := by
        intro existing
        cases hnum : segToNat k2 with
        | some n =>
            have h2 : segToNat ((k2 :: rest).headD "") = some n := by
              simpa using hnum
            cases existing <;> exact ih.2 _ n h2
        | none =>
            cases existing <;> exact ih.1 _
      refine ⟨fun fs => ?_, fun xs m hm => ?_⟩
      · rw [setGo_obj_cons, getParts_obj_cons, objGet_objSet]
        exact hchild (objGet fs k)
      · simp only [List.headD] at hm
        rw [setGo_arr_cons xs k k2 rest v m hm, getParts_arr_cons _ _ _ _ hm,
          arrGet_arrSet]
        exact hchild (arrGet xs m)

theorem setGo_obj_shape (parts : List String) (fs : List (String × Value))
    (v : Value) (h : parts ≠ []) : ∃ gs, setGo (vObj fs) parts v = vObj gs := by
  match parts with
  | [k] => exact ⟨_, rfl⟩
  | k :: k2 :: rest => exact ⟨_, rfl⟩

/-- Round-trip of the path codec: for every tree and every non-empty
path, reading back immediately after writing returns the written value. -/
theorem get_set_roundtrip (obj : Value) (path : String) (v : Value)
    (h : path ≠ "") : getByPath (setByPath obj path v) path = v := by
  cases hd : hasDot path with
  | true =>
      have hparts := splitPath_ne_nil path
      obtain ⟨gs, hgs⟩ :=
        setGo_obj_shape (splitPath path) (spreadFields obj) v hparts
      have hset : setByPath obj path v = vObj gs := by
        rw [setByPath, if_neg h, hd, ← hgs]
        simp
      have hget : getByPath (vObj gs) path = getParts (vObj gs) (splitPath path) := by
        rw [getByPath, hd]
        simp [isNullish, h]
      rw [hset, hget, ← hgs]
      exact (getParts_setGo (splitPath path) v hparts).1 (spreadFields obj)
  | false =>
      have hset : setByPath obj path v = vObj (objSet (spreadFields obj) path v) := by
        rw [setByPath, if_neg h, hd]
        simp
      rw [hset, getByPath, hd]
      simp [isNullish, h, jsMember, objGet_objSet]

/-- Structural sharing, value-level: `setByPath` on an object root leaves
every top-level member other than the path's first segment unchanged. -/
theorem setByPath_sibling (fs : List (String × Value)) (path k : String)
    (v : Value) (h : path ≠ "") (hk : k ≠ (splitPath path).headD "") :
    jsMember (setByPath (vObj fs) path v) k = jsMember (vObj fs) k := by
  cases hd : hasDot path with
  | true =>
      obtain ⟨p0, ptl, hsplit⟩ :=
        List.exists_cons_of_ne_nil (splitPath_ne_nil path)
      have hk0 : k ≠ p0 := by simpa [hsplit] using hk
      have hset : setByPath (vObj fs) path v
          = setGo (vObj fs) (splitPath path) v := by
        rw [setByPath, if_neg h, hd]
        simp [spreadFields]
      rw [hset, hsplit]
      cases ptl with
      | nil => simp [setGo, jsMember, objGet_objSet_ne _ _ _ _ hk0]
      | cons p1 ptl' => simp [setGo, jsMember, objGet_objSet_ne _ _ _ _ hk0]
  | false =>
      have hk0 : k ≠ path := by simpa [splitPath_no_dot path hd] using hk
      have hset : setByPath (vObj fs) path v
          = vObj (objSet fs path v) := by
        rw [setByPath, if_neg h, hd]
        simp [spreadFields]
      rw [hset]
      simp [jsMember, objGet_objSet_ne _ _ _ _ hk0]

/-- Structural sharing, value-level, for `unsetByPath` on an object root. -/
theorem unsetByPath_sibling (fs : List (String × Value)) (path k : String)
    (h : path ≠ "") (hk : k ≠ (splitPath path).headD "") :
    jsMember (unsetByPath (vObj fs) path) k = jsMember (vObj fs) k := by
  obtain ⟨p0, ptl, hsplit⟩ :=
    List.exists_cons_of_ne_nil (splitPath_ne_nil path)
  have hk0 : k ≠ p0 := by simpa [hsplit] using hk
  have hu : unsetByPath (vObj fs) path = unsetGo (vObj fs) (splitPath path) := by
    rw [unsetByPath]
    simp [isNullish, h]
  rw [hu, hsplit]
  cases ptl with
  | nil => simp [unsetGo, jsMember, objGet_objDelete_ne _ _ _ hk0]
  | cons p1 ptl' =>
      have he : unsetGo (vObj fs) (p0 :: p1 :: ptl')
          = (if ((jsMember (vObj fs) p0).isNullish
                || !(jsMember (vObj fs) p0).typeofObject) = true
             then vObj fs
             else vObj (objSet fs p0
                 (unsetGo (jsMember (vObj fs) p0) (p1 :: ptl')))) := rfl
      rw [he]
      by_cases hcond :
          ((jsMember (vObj fs) p0).isNullish
            || !(jsMember (vObj fs) p0).typeofObject) = true
      · rw [if_pos hcond]
      · rw [if_neg hcond]
        simp [jsMember, objGet_objSet_ne _ _ _ _ hk0]

/-- The local object-only unset never manufactures a value at the path: the
reading back either finds `undefined` (slot deleted) or exactly what was
there before (walk bailed out). -/
theorem getParts_unsetLocalGo : ∀ (parts : List String) (fs : List (String × Value)),
    parts ≠ [] →
    getParts (vObj (unsetLocalGo fs parts)) parts = vUndef ∨
    getParts (vObj (unsetLocalGo fs parts)) parts = getParts (vObj fs) parts
  | [], _, h => absurd rfl h
  | [k], fs, _ => by
      left
      rw [show unsetLocalGo fs [k] = objDelete fs k from rfl,
        getParts_obj_cons, getParts_nil, objGet_objDelete]
  | k :: k2 :: rest, fs, _ => by
      have e0 : unsetLocalGo fs (k :: k2 :: rest) =
          (match objGet fs k with
           | vObj gs => objSet fs k (vObj (unsetLocalGo gs (k2 :: rest)))
           | _ => fs) := rfl
      rw [e0]
      cases hex : objGet fs k with
      | vObj gs =>
          rw [getParts_obj_cons, objGet_objSet]
          have ih := getParts_unsetLocalGo (k2 :: rest) gs (by simp)
          cases ih with
          | inl h1 => exact Or.inl h1
          | inr h2 =>
              right
              rw [h2]
              conv_rhs => rw [getParts_obj_cons, hex]
      | vUndef => exact Or.inr rfl
      | vNull => exact Or.inr rfl
      | vBool b => exact Or.inr rfl
      | vNum q => exact Or.inr rfl
      | vStr s => exact Or.inr rfl
      | vArr xs => exact Or.inr rfl

theorem get_unsetLocal (fs : List (String × Value)) (path : String)
    (h : path ≠ "") :
    getByPath (unsetLocalByPath (vObj fs) path) path = vUndef ∨
    getByPath (unsetLocalByPath (vObj fs) path) path = getByPath (vObj fs) path := by
  cases hd : hasDot path with
  | false =>
      left
      have hu : unsetLocalByPath (vObj fs) path = vObj (objDelete fs path) := by
        rw [unsetLocalByPath]
        simp [truthy, h, hd, spreadFields]
      rw [hu]
      simp [getByPath, isNullish, h, hd, jsMember, objGet_objDelete]
  | true =>
      have hu : unsetLocalByPath (vObj fs) path
          = vObj (unsetLocalGo fs (splitPath path)) := by
        rw [unsetLocalByPath]
        simp [truthy, h, hd, spreadFields]
      have hg : ∀ gs, getByPath (vObj gs) path = getParts (vObj gs) (splitPath path) := by
        intro gs
        simp [getByPath, isNullish, h, hd]
      rw [hu, hg, hg]
      exact getParts_unsetLocalGo (splitPath path) fs (splitPath_ne_nil path)

/-! ### The rule evaluator

`getFieldError` from `src/useForm/validation.ts` (the path-aware revision
cited by the spec, which reads the value with the utils `getByPath`).
Rule options `string | \x7bvalue, message\x7d` forms are modelled by small
sum-like inductives; the RegExp of a pattern rule is modelled by its
opaque `test` function; the custom `validate` callback returns an
arbitrary JS value and only string results count as errors. -/

/-- `required?: string | boolean`. -/
inductive RequiredRule : Type where
  | flag (b : Bool)
  | withMsg (s : String)

/-- JS truthiness of the `required` option. -/
def requiredTruthy : Option RequiredRule → Bool
  | none => false
  | some (.flag b) => b
  | some (.withMsg s) => !(s == "")

/-- `typeof required === "string" ? required : "This field is required"`. -/
def requiredMsg : Option RequiredRule → String
  | some (.withMsg s) => s
  | _ => "This field is required"

/-- `pattern?: RegExp | \x7bvalue: RegExp, message: string\x7d`; the RegExp
is modelled by its `test` function. -/
inductive PatternRule : Type where
  | regex (test : String → Bool)
  | withMsg (test : String → Bool) (message : String)

def PatternRule.test : PatternRule → String → Bool
  | .regex t, s => t s
  | .withMsg t _, s => t s

def PatternRule.message : PatternRule → String
  | .regex _ => "Invalid format"
  | .withMsg _ m => m

/-- A numeric rule option `number | \x7bvalue: number, message: string\x7d`. -/
inductive NumRule : Type where
  | plain (n : ℚ)
  | withMsg (n : ℚ) (message : String)

def NumRule.val : NumRule → ℚ
  | .plain n => n
  | .withMsg n _ => n

def NumRule.msgOr (r : NumRule) (dflt : String) : String :=
  match r with
  | .plain _ => dflt
  | .withMsg _ m => m

/-- The per-path rule registration (`Rules` from `src/useForm/types.ts`). -/
structure Rules : Type where
  required : Option RequiredRule := none
  pattern : Option PatternRule := none
  minLength : Option NumRule := none
  maxLength : Option NumRule := none
  min : Option NumRule := none
  max : Option NumRule := none
  validate : Option (Value → Value → Value) := none
  validateAsync : Option (Value → Value → Option String) := none
  asyncDebounceMs : Option ℚ := none

/-- Association-list map used for the rule registry, the async sequence
table and the debounce timer table (JS `Map`). -/
def mapLookup {α : Type} (m : List (String × α)) (k : String) : Option α :=
  match m with
  | [] => none
  | (k', v) :: rest => if k' = k then some v else mapLookup rest k

def mapSet {α : Type} (m : List (String × α)) (k : String) (v : α) :
    List (String × α) :=
  match m with
  | [] => [(k, v)]
  | (k', w) :: rest =>
      if k' = k then (k', v) :: rest else (k', w) :: mapSet rest k v

def mapDelete {α : Type} (m : List (String × α)) (k : String) :
    List (String × α) :=
  match m with
  | [] => []
  | (k', w) :: rest =>
      if k' = k then mapDelete rest k else (k', w) :: mapDelete rest k

/-- `asNumber` from the validation module: finite numbers pass through;
strings are trimmed, the empty string is not a number, and otherwise the
string is coerced (modelled on the plain decimal fragment of JS `Number`:
optional minus sign, digits, optional fractional digits). -/
def digitBlockToNat (cs : List Char) : Option Nat :=
  match cs with
  | [] => none
  | _ => if cs.all Char.isDigit then some (digitsToNat cs) else none

def parseDecimal (s : String) : Option ℚ :=
  let split :=
    match s.toList with
    | '-' :: rest => (true, splitDots rest)
    | cs => (false, splitDots cs)
  match split.2 with
  | [i] => (digitBlockToNat i).map
      (fun n => if split.1 then -(n : ℚ) else (n : ℚ))
  | [i, f] =>
      match digitBlockToNat i, digitBlockToNat f with
      | some ni, some nf =>
          some (let q : ℚ := (ni : ℚ) + (nf : ℚ) / ((10 : ℚ) ^ f.length)
                if split.1 then -q else q)
      | _, _ => none
  | _ => none

/-- JS whitespace for `trim`. -/
def isJsWhitespace (c : Char) : Bool :=
  c = ' ' || c = '\t' || c = '\n' || c = '\r'

def jsTrim (s : String) : String :=
  String.mk (((s.toList.dropWhile isJsWhitespace).reverse.dropWhile
    isJsWhitespace).reverse)

/-- `String.prototype.startsWith`, evaluable on character lists. -/
def jsStartsWith (s pre' : String) : Bool :=
  List.isPrefixOf pre'.toList s.toList

def asNumber (v : Value) : Option ℚ :=
  match v with
  | vNum q => some q
  | vStr s =>
      let t := jsTrim s
      if t = "" then none else parseDecimal t
  | _ => none

/-- The `empty` test of the `required` check: `null`, `undefined`,
whitespace-only string, or empty array. -/
def requiredEmpty (value : Value) : Bool :=
  value.isNullish
  || (match value with | vStr s => jsTrim s == "" | _ => false)
  || (match value with | vArr xs => xs.isEmpty | _ => false)

def defaultMinLenMsg (q : ℚ) : String :=
  "Must be at least " ++ toString q ++ " characters"

def defaultMaxLenMsg (q : ℚ) : String :=
  "Must be at most " ++ toString q ++ " characters"

def defaultMinMsg (q : ℚ) : String := "Must be at least " ++ toString q

def defaultMaxMsg (q : ℚ) : String := "Must be at most " ++ toString q

/-- `getFieldError(name, nextValues, rulesMap)` from the validation module
(`fieldArray.ts` concatenation lines 616-709): sequential checks with
early returns, translated as a cascade. -/
def getFieldError (name : String) (nextValues : Value)
    (rulesMap : List (String × Rules)) : Option String :=
  match mapLookup rulesMap name with
  | none => none
  | some rules =>
      if requiredTruthy rules.required
          && requiredEmpty (getByPath nextValues name) then
        some (requiredMsg rules.required)
      else
        match rules.pattern, getByPath nextValues name with
        | some p, vStr s =>
            if s.length > 0 && !p.test s then some p.message
            else getFieldErrorAfterPattern name nextValues rules
        | _, _ => getFieldErrorAfterPattern name nextValues rules
where
  getFieldErrorAfterPattern (name : String) (nextValues : Value)
      (rules : Rules) : Option String :=
    match rules.minLength, getByPath nextValues name with
    | some r, vStr s =>
        if s.length > 0 && (s.length : ℚ) < r.val then
          some (r.msgOr (defaultMinLenMsg r.val))
        else getFieldErrorAfterMinLength name nextValues rules
    | _, _ => getFieldErrorAfterMinLength name nextValues rules
  getFieldErrorAfterMinLength (name : String) (nextValues : Value)
      (rules : Rules) : Option String :=
    match rules.maxLength, getByPath nextValues name with
    | some r, vStr s =>
        if s.length > 0 && (s.length : ℚ) > r.val then
          some (r.msgOr (defaultMaxLenMsg r.val))
        else getFieldErrorAfterMaxLength name nextValues rules
    | _, _ => getFieldErrorAfterMaxLength name nextValues rules
  getFieldErrorAfterMaxLength (name : String) (nextValues : Value)
      (rules : Rules) : Option String :=
    match rules.min, asNumber (getByPath nextValues name) with
    | some r, some num =>
        if num < r.val then some (r.msgOr (defaultMinMsg r.val))
        else getFieldErrorAfterMin name nextValues rules
    | _, _ => getFieldErrorAfterMin name nextValues rules
  getFieldErrorAfterMin (name : String) (nextValues : Value)
      (rules : Rules) : Option String :=
    match rules.max, asNumber (getByPath nextValues name) with
    | some r, some num =>
        if num > r.val then some (r.msgOr (defaultMaxMsg r.val))
        else getFieldErrorAfterMax name nextValues rules
    | _, _ => getFieldErrorAfterMax name nextValues rules
  getFieldErrorAfterMax (name : String) (nextValues : Value)
      (rules : Rules) : Option String :=
    match rules.validate with
    | some f =>
        match f (getByPath nextValues name) nextValues with
        | vStr s => some s
        | _ => none
    | none => none

/-! ### Spec-side sync evaluator

Defined from the words of spec section 4.2 ("Fixed precedence, first
failing check wins (short-circuit)"), to be compared with the source's
`getFieldError`: an ordered list of independent checks, the first failing
one winning. -/

/-- First failing check wins. -/
def firstSome : List (Option String) → Option String
  | [] => none
  | some m :: _ => some m
  | none :: rest => firstSome rest

/-- Check 1: `required` fails if the value is `null`/`undefined`/empty
string after trim/empty array. -/
def specRequiredCheck (rules : Rules) (value : Value) : Option String :=
  if requiredTruthy rules.required && requiredEmpty value then
    some (requiredMsg rules.required)
  else none

/-- Check 2: `pattern`, only applied to non-empty strings. -/
def specPatternCheck (rules : Rules) (value : Value) : Option String :=
  match rules.pattern, value with
  | some p, vStr s =>
      if s.length > 0 && !p.test s then some p.message else none
  | _, _ => none

/-- Check 3a: `minLength`, only applied to non-empty strings. -/
def specMinLengthCheck (rules : Rules) (value : Value) : Option String :=
  match rules.minLength, value with
  | some r, vStr s =>
      if s.length > 0 && (s.length : ℚ) < r.val then
        some (r.msgOr (defaultMinLenMsg r.val))
      else none
  | _, _ => none

/-- Check 3b: `maxLength`, only applied to non-empty strings. -/
def specMaxLengthCheck (rules : Rules) (value : Value) : Option String :=
  match rules.maxLength, value with
  | some r, vStr s =>
      if s.length > 0 && (s.length : ℚ) > r.val then
        some (r.msgOr (defaultMaxLenMsg r.val))
      else none
  | _, _ => none

/-- Check 4a: `min`, applied to the value coerced to a number;
non-coercible values are skipped, not flagged. -/
def specMinCheck (rules : Rules) (value : Value) : Option String :=
  match rules.min, asNumber value with
  | some r, some num =>
      if num < r.val then some (r.msgOr (defaultMinMsg r.val)) else none
  | _, _ => none

/-- Check 4b: `max`, applied to the value coerced to a number;
non-coercible values are skipped, not flagged. -/
def specMaxCheck (rules : Rules) (value : Value) : Option String :=
  match rules.max, asNumber value with
  | some r, some num =>
      if num > r.val then some (r.msgOr (defaultMaxMsg r.val)) else none
  | _, _ => none

/-- Check 5: the custom `validate(value, wholeTree)` callback; a string
result is the error message. -/
def specValidateCheck (rules : Rules) (value : Value) (wholeTree : Value) :
    Option String :=
  match rules.validate with
  | some f =>
      match f value wholeTree with
      | vStr s => some s
      | _ => none
  | none => none

/-- Spec-side `evaluateSync`: the fixed-precedence chain
required, pattern, minLength, maxLength, min, max, validate, first
failing check winning. -/
def specSyncEval (name : String) (valueTree : Value)
    (rulesMap : List (String × Rules)) : Option String :=
  match mapLookup rulesMap name with
  | none => none
  | some rules =>
      let value := getByPath valueTree name
      firstSome
        [specRequiredCheck rules value,
         specPatternCheck rules value,
         specMinLengthCheck rules value,
         specMaxLengthCheck rules value,
         specMinCheck rules value,
         specMaxCheck rules value,
         specValidateCheck rules value valueTree]

theorem firstSome_some (m : String) (t : List (Option String)) :
    firstSome (some m :: t) = some m := rfl

theorem firstSome_none (t : List (Option String)) :
    firstSome (none :: t) = firstSome t := rfl

theorem firstSome_one (x : Option String) : firstSome [x] = x := by
  cases x <;> rfl

theorem afterMax_eq (name : String) (values : Value) (rules : Rules) :
    getFieldError.getFieldErrorAfterMax name values rules
      = specValidateCheck rules (getByPath values name) values := by
  simp only [getFieldError.getFieldErrorAfterMax, specValidateCheck]

theorem afterMin_eq (name : String) (values : Value) (rules : Rules) :
    getFieldError.getFieldErrorAfterMin name values rules
      = firstSome
          [specMaxCheck rules (getByPath values name),
           specValidateCheck rules (getByPath values name) values] := by
  cases hm : rules.max with
  | none =>
      simp only [getFieldError.getFieldErrorAfterMin, specMaxCheck, hm,
        firstSome_none, firstSome_one]
      exact afterMax_eq name values rules
  | some r =>
      cases hn : asNumber (getByPath values name) with
      | none =>
          simp only [getFieldError.getFieldErrorAfterMin, specMaxCheck, hm, hn,
            firstSome_none, firstSome_one]
          exact afterMax_eq name values rules
      | some num =>
          simp only [getFieldError.getFieldErrorAfterMin, specMaxCheck, hm, hn]
          by_cases hlt : num > r.val
          · simp [hlt, firstSome_some]
          · simp [hlt, firstSome_none, firstSome_one, afterMax_eq]

theorem afterMaxLength_eq (name : String) (values : Value) (rules : Rules) :
    getFieldError.getFieldErrorAfterMaxLength name values rules
      = firstSome
          [specMinCheck rules (getByPath values name),
           specMaxCheck rules (getByPath values name),
           specValidateCheck rules (getByPath values name) values] := by
  cases hm : rules.min with
  | none =>
      simp only [getFieldError.getFieldErrorAfterMaxLength, specMinCheck, hm,
        firstSome_none]
      exact afterMin_eq name values rules
  | some r =>
      cases hn : asNumber (getByPath values name) with
      | none =>
          simp only [getFieldError.getFieldErrorAfterMaxLength, specMinCheck,
            hm, hn, firstSome_none]
          exact afterMin_eq name values rules
      | some num =>
          simp only [getFieldError.getFieldErrorAfterMaxLength, specMinCheck,
            hm, hn]
          by_cases hlt : num < r.val
          · simp [hlt, firstSome_some]
          · simp only [hlt, if_false, firstSome_none]
            simpa [hlt] using afterMin_eq name values rules

theorem afterMinLength_eq (name : String) (values : Value) (rules : Rules) :
    getFieldError.getFieldErrorAfterMinLength name values rules
      = firstSome
          [specMaxLengthCheck rules (getByPath values name),
           specMinCheck rules (getByPath values name),
           specMaxCheck rules (getByPath values name),
           specValidateCheck rules (getByPath values name) values] := by
  cases hml : rules.maxLength with
  | none =>
      cases hv : getByPath values name <;>
        · simp only [getFieldError.getFieldErrorAfterMinLength,
            specMaxLengthCheck, hml, hv, firstSome_none]
          simpa [hv] using afterMaxLength_eq name values rules
  | some r =>
      cases hv : getByPath values name
      case vStr s =>
        simp only [getFieldError.getFieldErrorAfterMinLength,
          specMaxLengthCheck, hml, hv]
        by_cases hc : (s.length > 0 && (s.length : ℚ) > r.val : Bool) = true
        · simp [hc, firstSome_some]
        · simp only [hc, if_false, firstSome_none]
          simpa [hv] using afterMaxLength_eq name values rules
      all_goals
        · simp only [getFieldError.getFieldErrorAfterMinLength,
            specMaxLengthCheck, hml, hv, firstSome_none]
          simpa [hv] using afterMaxLength_eq name values rules

theorem afterPattern_eq (name : String) (values : Value) (rules : Rules) :
    getFieldError.getFieldErrorAfterPattern name values rules
      = firstSome
          [specMinLengthCheck rules (getByPath values name),
           specMaxLengthCheck rules (getByPath values name),
           specMinCheck rules (getByPath values name),
           specMaxCheck rules (getByPath values name),
           specValidateCheck rules (getByPath values name) values] := by
  cases hml : rules.minLength with
  | none =>
      cases hv : getByPath values name <;>
        · simp only [getFieldError.getFieldErrorAfterPattern,
            specMinLengthCheck, hml, hv, firstSome_none]
          simpa [hv] using afterMinLength_eq name values rules
  | some r =>
      cases hv : getByPath values name
      case vStr s =>
        simp only [getFieldError.getFieldErrorAfterPattern,
          specMinLengthCheck, hml, hv]
        by_cases hc : (s.length > 0 && (s.length : ℚ) < r.val : Bool) = true
        · simp [hc, firstSome_some]
        · simp only [hc, if_false, firstSome_none]
          simpa [hv] using afterMinLength_eq name values rules
      all_goals
        · simp only [getFieldError.getFieldErrorAfterPattern,
            specMinLengthCheck, hml, hv, firstSome_none]
          simpa [hv] using afterMinLength_eq name values rules

/-- The source's sync rule evaluation coincides with the spec's
fixed-precedence first-failing-check chain. -/
theorem getFieldError_eq_spec (name : String) (values : Value)
    (rulesMap : List (String × Rules)) :
    getFieldError name values rulesMap = specSyncEval name values rulesMap := by
  simp only [getFieldError, specSyncEval]
  cases mapLookup rulesMap name with
  | none => rfl
  | some rules =>
      by_cases hreq :
          (requiredTruthy rules.required
            && requiredEmpty (getByPath values name)) = true
      · simp [hreq, specRequiredCheck, firstSome_some]
      · simp only [hreq, if_false, specRequiredCheck, firstSome_none]
        cases hp : rules.pattern with
        | none =>
            cases hv : getByPath values name <;>
              · simp only [specPatternCheck, hp, hv, firstSome_none]
                simpa [hv, hp] using afterPattern_eq name values rules
        | some p =>
            cases hv : getByPath values name
            all_goals try
              (simp only [specPatternCheck, hp, hv, firstSome_none];
                simpa [hv, hp] using afterPattern_eq name values rules)
            rename_i s
            simp only [specPatternCheck, hp, hv]
            by_cases hc : (s.length > 0 && !p.test s) = true
            · simp [hc, firstSome_none, firstSome_some]
            · simp only [hc, if_false, firstSome_none]
              have h5 := afterPattern_eq name values rules
              rw [hv] at h5
              exact h5

/-! ### Engine state

The component state of `useForm` (v2, the path-aware revision): the
values tree, the four metadata trees, the per-path async sequence table,
the debounce timer table (path to the scheduled attempt's sequence
number), and the submit counter.  The rule registry, global debounce and
initial values are refs/options that never change during the operations
modelled here, so they are a separate configuration record. -/

structure EngineState : Type where
  values : Value
  errors : Value
  touched : Value
  dirty : Value
  validating : Value
  asyncSeq : List (String × Nat)
  timers : List (String × Nat)
  submitCount : Nat

structure EngineConfig : Type where
  rulesMap : List (String × Rules)
  globalAsyncDebounceMs : ℚ := 0
  blockSubmitWhileValidating : Bool := true
  initialValues : Value := vObj []

/-- `nextAsyncSeq` from `src/useForm/async.ts`: bump-and-return the
per-path monotone counter (missing entries read as 0). -/
def nextAsyncSeq (m : List (String × Nat)) (key : String) :
    List (String × Nat) × Nat :=
  let prev := (mapLookup m key).getD 0
  let next := prev + 1
  (mapSet m key next, next)

/-- `isLatestAsyncSeq` from `src/useForm/async.ts`. -/
def isLatestAsyncSeq (m : List (String × Nat)) (key : String) (seq : Nat) :
    Bool :=
  (mapLookup m key).getD 0 == seq

/-- JS truthiness of a `string | undefined` message (`if (msg)`). -/
def jsTruthyMsg : Option String → Bool
  | some m => !(m == "")
  | none => false

def clearDebounceTimer (st : EngineState) (name : String) : EngineState :=
  { st with timers := mapDelete st.timers name }

/-- `setFieldValidating` (useForm v2): set the flag with `setByPath`,
clear it with the local object-only `unsetByPath`. -/
def setFieldValidating (st : EngineState) (name : String) (isv : Bool) :
    EngineState :=
  { st with validating :=
      if isv then setByPath st.validating name (vBool true)
      else unsetLocalByPath st.validating name }

/-- `setFieldError` (useForm v2): a truthy message is written with
`setByPath`, otherwise the entry is removed with the local `unsetByPath`. -/
def setFieldError (st : EngineState) (name : String) (msg : Option String) :
    EngineState :=
  { st with errors :=
      match msg with
      | some m =>
          if m = "" then unsetLocalByPath st.errors name
          else setByPath st.errors name (vStr m)
      | none => unsetLocalByPath st.errors name }

/-- `isDeepEqual` (useForm v2): structural deep equality; arrays compare
lengthwise and element-wise, objects by key count plus per-key lookup. -/
def isDeepEqual : Value → Value → Bool
  | vUndef, vUndef => true
  | vNull, vNull => true
  | vBool a, vBool b => a == b
  | vNum a, vNum b => a == b
  | vStr a, vStr b => a == b
  | vArr xs, vArr ys => xs.length == ys.length && deepList xs ys
  | vObj fs, vObj gs => fs.length == gs.length && deepFields fs gs
  | _, _ => false
where
  deepList : List Value → List Value → Bool
    | [], _ => true
    | _ :: _, [] => false
    | x :: xs, y :: ys => isDeepEqual x y && deepList xs ys
  deepFields : List (String × Value) → List (String × Value) → Bool
    | [], _ => true
    | (k, v) :: rest, gs =>
        objHas gs k && isDeepEqual v (objGet gs k) && deepFields rest gs

/-- `computeIsDirty` (useForm v2). -/
def computeIsDirty (cfg : EngineConfig) (name : String) (nextValues : Value) :
    Bool :=
  !isDeepEqual (getByPath nextValues name) (getByPath cfg.initialValues name)

/-- `setFieldDirty` (useForm v2): array branches use the `__selfDirty`
marker, object branches the `.__self` marker, leaves the plain path. -/
def setFieldDirty (st : EngineState) (name : String) (isDirty : Bool) :
    EngineState :=
  { st with dirty :=
      let existing := getByPath st.dirty name
      if isDirty then
        match existing with
        | vArr _ => setByPath st.dirty ("__selfDirty." ++ name) (vBool true)
        | vObj _ => setByPath st.dirty (name ++ ".__self") (vBool true)
        | _ => setByPath st.dirty name (vBool true)
      else
        match existing with
        | vArr _ => unsetLocalByPath st.dirty ("__selfDirty." ++ name)
        | vObj _ => unsetLocalByPath st.dirty (name ++ ".__self")
        | _ => unsetLocalByPath st.dirty name }

/-- `validateFieldSync` (useForm v2): evaluate the sync rules and store
the outcome.  The path-readable proxy around the value tree forwards
string keys to `getByPath`, so at the value level the callbacks receive
the plain tree. -/
def validateFieldSyncOp (cfg : EngineConfig) (st : EngineState)
    (name : String) (nextValues : Value) : EngineState :=
  setFieldError st name (getFieldError name nextValues cfg.rulesMap)

/-- Result of one synchronous activation of `validateFieldAsync`:
the state after the activation, how many times the async rule callback
was invoked, and the returned boolean. -/
structure AsyncCallResult : Type where
  state : EngineState
  asyncCalls : Nat
  returned : Bool

/-- `validateFieldAsync` (useForm v2, lines 536-634).  The debounced
branch only schedules (arming a timer under a freshly minted sequence
number); the immediate branch invokes the async rule, modelled as
resolving synchronously, and applies the result under the stale-sequence
check. -/
def validateFieldAsync (cfg : EngineConfig) (st : EngineState)
    (name : String) (nextValues : Value) (bypassDebounce : Bool) :
    AsyncCallResult :=
  let syncMsg := getFieldError name nextValues cfg.rulesMap
  if jsTruthyMsg syncMsg then
    let st := { st with asyncSeq := (nextAsyncSeq st.asyncSeq name).1 }
    let st := clearDebounceTimer st name
    let st := setFieldError st name syncMsg
    let st := setFieldValidating st name false
    ⟨st, 0, false⟩
  else
    match (mapLookup cfg.rulesMap name).bind (fun r => r.validateAsync) with
    | none =>
        let st := { st with asyncSeq := (nextAsyncSeq st.asyncSeq name).1 }
        let st := clearDebounceTimer st name
        let st := setFieldValidating st name false
        ⟨st, 0, true⟩
    | some va =>
        let fieldDebounceMs :=
          ((mapLookup cfg.rulesMap name).bind
            (fun r => r.asyncDebounceMs)).getD cfg.globalAsyncDebounceMs
        let shouldDebounce := !bypassDebounce && fieldDebounceMs > 0
        let st := clearDebounceTimer st name
        if shouldDebounce then
          let st := setFieldValidating st name true
          let mint := nextAsyncSeq st.asyncSeq name
          let st := { st with asyncSeq := mint.1,
                              timers := mapSet st.timers name mint.2 }
          ⟨st, 0, true⟩
        else
          let mint := nextAsyncSeq st.asyncSeq name
          let st := { st with asyncSeq := mint.1 }
          let st := setFieldValidating st name true
          let msg := va (getByPath nextValues name) nextValues
          if isLatestAsyncSeq st.asyncSeq name mint.2 then
            let st := setFieldError st name msg
            let st := setFieldValidating st name false
            ⟨st, 1, !jsTruthyMsg msg⟩
          else ⟨st, 1, true⟩

/-- The debounce timer callback (useForm v2, lines 582-613): delete the
timer handle, bail if the scheduled sequence number is stale, re-check
sync rules against the latest value tree, and only then invoke the async
rule under a fresh run sequence number. -/
def debounceTimerFire (cfg : EngineConfig) (st : EngineState)
    (name : String) (scheduledSeq : Nat) : AsyncCallResult :=
  let st := { st with timers := mapDelete st.timers name }
  if !isLatestAsyncSeq st.asyncSeq name scheduledSeq then ⟨st, 0, true⟩
  else
    let latestValues := st.values
    let againSync := getFieldError name latestValues cfg.rulesMap
    if jsTruthyMsg againSync then
      let st := setFieldError st name againSync
      let st := setFieldValidating st name false
      ⟨st, 0, true⟩
    else
      match (mapLookup cfg.rulesMap name).bind (fun r => r.validateAsync) with
      | none => ⟨st, 0, true⟩
      | some va =>
          let mint := nextAsyncSeq st.asyncSeq name
          let st := { st with asyncSeq := mint.1 }
          let msg := va (getByPath latestValues name) latestValues
          if isLatestAsyncSeq st.asyncSeq name mint.2 then
            let st := setFieldError st name msg
            let st := setFieldValidating st name false
            ⟨st, 1, true⟩
          else ⟨st, 1, true⟩

/-- Applying an async resolution (useForm v2, lines 607-612 and 626-631):
the result lands on the error/validating trees only when the captured
sequence number is still the table's current value for the path. -/
def applyAsyncResolution (st : EngineState) (name : String) (seq : Nat)
    (msg : Option String) : EngineState :=
  if isLatestAsyncSeq st.asyncSeq name seq then
    setFieldValidating (setFieldError st name msg) name false
  else st

/-- The engine events that can happen between scheduling an async attempt
and its resolution: sequence mints (any `nextAsyncSeq` call site), timer
arming/clearing, error/validating writes, value edits, and resolutions. -/
inductive AsyncEvent : Type where
  | mintSeq (p : String)
  | armTimer (p : String) (seq : Nat)
  | clearTimer (p : String)
  | writeError (p : String) (msg : Option String)
  | writeValidating (p : String) (b : Bool)
  | setValuesTo (v : Value)
  | resolveAsync (p : String) (seq : Nat) (msg : Option String)

def stepEvent (st : EngineState) : AsyncEvent → EngineState
  | .mintSeq p => { st with asyncSeq := (nextAsyncSeq st.asyncSeq p).1 }
  | .armTimer p seq => { st with timers := mapSet st.timers p seq }
  | .clearTimer p => clearDebounceTimer st p
  | .writeError p msg => setFieldError st p msg
  | .writeValidating p b => setFieldValidating st p b
  | .setValuesTo v => { st with values := v }
  | .resolveAsync p seq msg => applyAsyncResolution st p seq msg

/-- Any interleaving of engine events. -/
def Steps : EngineState → EngineState → Prop :=
  Relation.ReflTransGen (fun s t => ∃ e, stepEvent s e = t)

/-- The current sequence table value for a path (missing reads as 0). -/
def seqOf (st : EngineState) (p : String) : Nat :=
  (mapLookup st.asyncSeq p).getD 0

theorem mapLookup_mapSet {α : Type} (m : List (String × α)) (k : String)
    (v : α) : mapLookup (mapSet m k v) k = some v := by
  induction m with
  | nil => simp [mapSet, mapLookup]
  | cons f rest ih =>
      obtain ⟨k', w⟩ := f
      by_cases h : k' = k
      · simp [mapSet, mapLookup, h]
      · simp [mapSet, mapLookup, h, ih]

theorem mapLookup_mapSet_ne {α : Type} (m : List (String × α)) (k k' : String)
    (v : α) (h : k' ≠ k) :
    mapLookup (mapSet m k v) k' = mapLookup m k' := by
  induction m with
  | nil => simp [mapSet, mapLookup, Ne.symm h]
  | cons f rest ih =>
      obtain ⟨k₀, w⟩ := f
      by_cases h0 : k₀ = k
      · subst h0
        simp [mapSet, mapLookup, Ne.symm h]
      · by_cases h1 : k₀ = k' <;> simp [mapSet, mapLookup, h0, h1, ih, h]

theorem seqOf_mint (st : EngineState) (p : String) :
    seqOf (stepEvent st (.mintSeq p)) p = seqOf st p + 1 := by
  simp [stepEvent, seqOf, nextAsyncSeq, mapLookup_mapSet]

theorem seqOf_le_stepEvent (st : EngineState) (e : AsyncEvent) (p : String) :
    seqOf st p ≤ seqOf (stepEvent st e) p := by
  cases e with
  | mintSeq q =>
      by_cases hq : p = q
      · subst hq
        rw [seqOf_mint]
        exact Nat.le_succ _
      · simp [seqOf, stepEvent, nextAsyncSeq,
          mapLookup_mapSet_ne _ _ _ _ hq]
  | armTimer q s => exact le_refl _
  | clearTimer q => exact le_refl _
  | writeError q m => exact le_refl _
  | writeValidating q b => exact le_refl _
  | setValuesTo v => exact le_refl _
  | resolveAsync q s m =>
      show seqOf st p ≤ seqOf (applyAsyncResolution st q s m) p
      unfold applyAsyncResolution
      split
      · exact le_refl _
      · exact le_refl _

theorem seqOf_le_steps {s t : EngineState} (h : Steps s t) (p : String) :
    seqOf s p ≤ seqOf t p := by
  induction h with
  | refl => exact le_refl _
  | tail _ hstep ih =>
      obtain ⟨e, he⟩ := hstep
      exact le_trans ih (he ▸ seqOf_le_stepEvent _ e p)

/-- A resolution whose captured sequence number is not the table's
current value leaves the state byte-for-byte unchanged. -/
theorem applyAsyncResolution_stale (st : EngineState) (p : String)
    (seq : Nat) (msg : Option String) (h : seq ≠ seqOf st p) :
    applyAsyncResolution st p seq msg = st := by
  have hc : ¬(isLatestAsyncSeq st.asyncSeq p seq = true) := by
    simp only [isLatestAsyncSeq, beq_iff_eq]
    exact fun he => h he.symm
  rw [applyAsyncResolution, if_neg hc]

/-! ### Structural array operations

From `src/useForm/internals/fieldArray.ts` (`createFieldArrayApi`): the
array found at a path is mutated positionally, every metadata tree gets
the same positional remap of its sub-branch, and async work for affected
indices is invalidated.  JS `splice`-based manipulations are modelled by
take/drop on lists; `new Array(n)` holes are `undefined`. -/

def listRemoveAt (xs : List Value) (i : Nat) : List Value :=
  xs.take i ++ xs.drop (i + 1)

def listInsertAt (xs : List Value) (i : Nat) (v : Value) : List Value :=
  xs.take i ++ v :: xs.drop i

/-- `splice(from, 1)` followed by `splice(to, 0, moved)`. -/
def listMove (xs : List Value) (i j : Nat) : List Value :=
  listInsertAt (listRemoveAt xs i) j (arrGet xs i)

/-- The three-assignment swap of two slots. -/
def listSwap (xs : List Value) (i j : Nat) : List Value :=
  arrSet (arrSet xs i (arrGet xs j)) j (arrGet xs i)

/-- `getArrayAtPath` from `fieldArray.ts`: a non-array at the path is
treated as the empty array. -/
def getArrayAtPath (values : Value) (path : String) : List Value :=
  match getByPath values path with
  | vArr xs => xs
  | _ => []

/-- Build an array of length `n` from either a real array or an object
with numeric keys (out-of-range and non-numeric keys are dropped; the
remaining slots are holes). -/
def buildLenArray (branch : Value) (n : Nat) : List Value :=
  match branch with
  | vArr xs => (List.range n).map (fun i => xs.getD i vUndef)
  | vObj fs =>
      fs.foldl (fun out kv =>
        match segToNat kv.1 with
        | some idx => if idx < n then arrSet out idx kv.2 else out
        | none => out) (List.replicate n vUndef)
  | _ => List.replicate n vUndef

def shiftNestedStateAfterRemove (obj : Value) (path : String) (index : Nat) :
    Value :=
  match getByPath obj path with
  | vArr xs => setByPath obj path (vArr (listRemoveAt xs index))
  | _ => obj

def reorderNestedArrayBranch (state : Value) (arrayPath : String)
    (fromIndex toIndex : Int) (arrayLen : Nat) : Value :=
  let branch := getByPath state arrayPath
  if branch.isNullish then state
  else
    let arr := buildLenArray branch arrayLen
    if fromIndex = toIndex then state
    else if fromIndex < 0 ∨ toIndex < 0 then state
    else if (arrayLen : Int) ≤ fromIndex ∨ (arrayLen : Int) ≤ toIndex then state
    else setByPath state arrayPath (vArr (listMove arr fromIndex.toNat toIndex.toNat))

def swapNestedArrayBranch (state : Value) (arrayPath : String)
    (a b : Int) (arrayLen : Nat) : Value :=
  let branch := getByPath state arrayPath
  if branch.isNullish then state
  else
    let arr := buildLenArray branch arrayLen
    if a = b then state
    else if a < 0 ∨ b < 0 then state
    else if (arrayLen : Int) ≤ a ∨ (arrayLen : Int) ≤ b then state
    else setByPath state arrayPath (vArr (listSwap arr a.toNat b.toNat))

/-- `keysAtOrAfterIndex`: registered rule paths under the array whose
first index segment is at or after `startIndex`. -/
def keysAtOrAfterIndex (keys : List String) (arrayPath : String)
    (startIndex : Int) : List String :=
  keys.filter (fun key =>
    let pfx := arrayPath ++ "."
    if jsStartsWith key pfx then
      match segToNat ((splitPath (key.drop pfx.length)).headD "") with
      | some idx => (idx : Int) ≥ startIndex
      | none => false
    else false)

/-- `invalidateAsyncAtOrAfterIndex`: bump the sequence number and cancel
the debounce timer of every affected path, then clear their validating
flags (with the array-aware utils `unsetByPath`). -/
def invalidateAsyncAtOrAfterIndex (cfg : EngineConfig) (st : EngineState)
    (arrayPath : String) (startIndex : Int) : EngineState :=
  let keysToInv :=
    keysAtOrAfterIndex (cfg.rulesMap.map Prod.fst) arrayPath startIndex
  if keysToInv.isEmpty then st
  else
    let st := keysToInv.foldl
      (fun s key =>
        clearDebounceTimer { s with asyncSeq := (nextAsyncSeq s.asyncSeq key).1 } key)
      st
    { st with validating :=
        keysToInv.foldl (fun v key => unsetByPath v key) st.validating }

/-- Conservative invalidation for reorders: everything at or after the
lower touched index. -/
def invalidateAsyncForReorder (cfg : EngineConfig) (st : EngineState)
    (arrayPath : String) (a b : Int) : EngineState :=
  invalidateAsyncAtOrAfterIndex cfg st arrayPath (min a b)

structure ArrayOpts : Type where
  shouldValidate : Bool := false
  shouldTouch : Bool := false

/-- The `shouldValidate` tail of the array operations: run sync then
async validation for each affected registered path (async resolutions
modelled synchronously). -/
def runValidateForKeys (cfg : EngineConfig) (st : EngineState)
    (keys : List String) (next : Value) : EngineState :=
  keys.foldl
    (fun s key =>
      (validateFieldAsync cfg (validateFieldSyncOp cfg s key next) key next false).state)
    st

/-- `remove` from `fieldArray.ts` lines 237-268. -/
def removeOp (cfg : EngineConfig) (st : EngineState) (name : String)
    (index : Int) (opts : ArrayOpts) : EngineState :=
  let arr := getArrayAtPath st.values name
  if arr.isEmpty ∨ index < 0 ∨ (arr.length : Int) ≤ index then st
  else
    let idx := index.toNat
    let next := setByPath st.values name (vArr (listRemoveAt arr idx))
    let st1 := { st with
      values := next,
      errors := shiftNestedStateAfterRemove st.errors name idx,
      touched := shiftNestedStateAfterRemove st.touched name idx,
      validating := shiftNestedStateAfterRemove st.validating name idx,
      dirty := shiftNestedStateAfterRemove st.dirty name idx }
    let st2 := setFieldDirty st1 name (computeIsDirty cfg name next)
    let st3 := invalidateAsyncAtOrAfterIndex cfg st2 name index
    if opts.shouldValidate then
      runValidateForKeys cfg st3
        ((cfg.rulesMap.map Prod.fst).filter
          (fun key => jsStartsWith key (name ++ "."))) next
    else st3

/-- `move` from `fieldArray.ts` lines 270-303. -/
def moveOp (cfg : EngineConfig) (st : EngineState) (name : String)
    (fromIndex toIndex : Int) : EngineState :=
  match getByPath st.values name with
  | vArr arr =>
      if fromIndex = toIndex then st
      else if fromIndex < 0 ∨ toIndex < 0 then st
      else if (arr.length : Int) ≤ fromIndex ∨ (arr.length : Int) ≤ toIndex then st
      else
        let next := setByPath st.values name
          (vArr (listMove arr fromIndex.toNat toIndex.toNat))
        let st1 := { st with
          values := next,
          errors := reorderNestedArrayBranch st.errors name fromIndex toIndex arr.length,
          touched := reorderNestedArrayBranch st.touched name fromIndex toIndex arr.length,
          dirty := reorderNestedArrayBranch st.dirty name fromIndex toIndex arr.length,
          validating := reorderNestedArrayBranch st.validating name fromIndex toIndex arr.length }
        let st2 := setFieldDirty st1 name (computeIsDirty cfg name next)
        invalidateAsyncForReorder cfg st2 name fromIndex toIndex
  | _ => st

/-- `swap` from `fieldArray.ts` lines 305-339. -/
def swapOp (cfg : EngineConfig) (st : EngineState) (name : String)
    (indexA indexB : Int) : EngineState :=
  match getByPath st.values name with
  | vArr arr =>
      if indexA = indexB then st
      else if indexA < 0 ∨ indexB < 0 then st
      else if (arr.length : Int) ≤ indexA ∨ (arr.length : Int) ≤ indexB then st
      else
        let next := setByPath st.values name
          (vArr (listSwap arr indexA.toNat indexB.toNat))
        let st1 := { st with
          values := next,
          errors := swapNestedArrayBranch st.errors name indexA indexB arr.length,
          touched := swapNestedArrayBranch st.touched name indexA indexB arr.length,
          dirty := swapNestedArrayBranch st.dirty name indexA indexB arr.length,
          validating := swapNestedArrayBranch st.validating name indexA indexB arr.length }
        let st2 := setFieldDirty st1 name (computeIsDirty cfg name next)
        invalidateAsyncForReorder cfg st2 name indexA indexB
  | _ => st

/-- `replace` from `fieldArray.ts` lines 394-444. -/
def replaceOp (cfg : EngineConfig) (st : EngineState) (name : String)
    (index : Int) (value : Value) (opts : ArrayOpts) : EngineState :=
  let arr := getArrayAtPath st.values name
  if arr.isEmpty ∨ index < 0 ∨ (arr.length : Int) ≤ index then st
  else
    let idx := index.toNat
    let next := setByPath st.values name (vArr (arrSet arr idx value))
    let st1 := { st with values := next }
    let st2 := setFieldDirty st1 name (computeIsDirty cfg name next)
    let pfx := name ++ "." ++ toString idx
    let keysToInv := (cfg.rulesMap.map Prod.fst).filter
      (fun key => key == pfx || jsStartsWith key (pfx ++ "."))
    let st3 := keysToInv.foldl
      (fun s key =>
        clearDebounceTimer { s with asyncSeq := (nextAsyncSeq s.asyncSeq key).1 } key)
      st2
    let st4 :=
      if keysToInv.isEmpty then st3
      else { st3 with validating :=
        keysToInv.foldl (fun v key => unsetByPath v key) st3.validating }
    let st5 :=
      if opts.shouldTouch then
        { st4 with touched := setByPath st4.touched pfx (vBool true) }
      else st4
    if opts.shouldValidate then
      runValidateForKeys cfg st5
        ((cfg.rulesMap.map Prod.fst).filter
          (fun key => key == pfx || jsStartsWith key (pfx ++ "."))) next
    else st5

/-- `append` from `fieldArray.ts` lines 212-235: whatever is currently at
the path, only an actual array contributes elements; the value is pushed
at the end. -/
def appendOp (cfg : EngineConfig) (st : EngineState) (name : String)
    (value : Value) (opts : ArrayOpts) : EngineState :=
  let arr := getArrayAtPath st.values name
  let next := setByPath st.values name (vArr (arr ++ [value]))
  let st1 := { st with values := next }
  let st2 := setFieldDirty st1 name (computeIsDirty cfg name next)
  let st3 :=
    if opts.shouldTouch then
      { st2 with touched :=
          setByPath st2.touched (name ++ "." ++ toString arr.length) (vBool true) }
    else st2
  if opts.shouldValidate then
    let keyRoot := name ++ "." ++ toString arr.length
    runValidateForKeys cfg st3
      ((cfg.rulesMap.map Prod.fst).filter
        (fun key => key == keyRoot || jsStartsWith key (keyRoot ++ "."))) next
  else st3

/-! ### Submit

From `useForm.ts` v2: `handleSubmit` (lines 1309-1338) and
`collectSubmitErrors` (lines 672-709).  `Object.assign(nextErrors,
setByPath(nextErrors, ...))` equals the `setByPath` result value-wise on
the object roots used here, and is modelled as plain assignment;
the async rules resolve synchronously in this model (the submit path
awaits each one before moving on). -/

/-- `hasAnyTrue` from `useForm.ts` v2 lines 354-362. -/
def hasAnyTrue : Value → Bool
  | vBool b => b
  | vArr xs => anyList xs
  | vObj fs => anyFields fs
  | _ => false
where
  anyList : List Value → Bool
    | [] => false
    | x :: xs => hasAnyTrue x || anyList xs
  anyFields : List (String × Value) → Bool
    | [] => false
    | (_, v) :: rest => hasAnyTrue v || anyFields rest

/-- `nextErrors && typeof nextErrors === "object" &&
Object.keys(nextErrors).length > 0`. -/
def hasKeys (v : Value) : Bool :=
  v.truthy && v.typeofObject && !(spreadFields v).isEmpty

def touchAllRegisteredFields (cfg : EngineConfig) (st : EngineState) :
    EngineState :=
  let newTouched := (cfg.rulesMap.map Prod.fst).foldl
    (fun acc key => setByPath acc key (vBool true)) st.touched
  { st with touched := newTouched }

/-- Phase 1 of `collectSubmitErrors`: sync rules for all registered
fields, truthy messages collected into a fresh error tree
(`Object.assign(nextErrors, setByPath(nextErrors, name, msg))` is
value-wise the `setByPath` result on these object roots). -/
def syncErrLoop (cfg : EngineConfig) (values : Value) :
    List String → Value → Value
  | [], acc => acc
  | name :: rest, acc =>
      syncErrLoop cfg values rest
        (match getFieldError name values cfg.rulesMap with
         | some m => if m = "" then acc else setByPath acc name (vStr m)
         | none => acc)

def collectSyncPhase (cfg : EngineConfig) (values : Value) : Value :=
  syncErrLoop cfg values (cfg.rulesMap.map Prod.fst) (vObj [])

/-- Phase 2 of `collectSubmitErrors`: for each registered field owning an
async rule whose entry in the collected tree is not already truthy, mint
a sequence number, set the validating flag, run the rule immediately
(submit bypasses debounce), and merge a truthy result under the
stale-sequence check. -/
def collectAsyncPhase (cfg : EngineConfig) (values : Value) :
    List String → EngineState → Value → EngineState × Value
  | [], st, acc => (st, acc)
  | name :: rest, st, acc =>
      match (mapLookup cfg.rulesMap name).bind (fun r => r.validateAsync) with
      | none => collectAsyncPhase cfg values rest st acc
      | some va =>
          if (getByPath acc name).truthy then
            collectAsyncPhase cfg values rest st acc
          else
            let mint := nextAsyncSeq st.asyncSeq name
            let st1 := setFieldValidating { st with asyncSeq := mint.1 } name true
            let msg := va (getByPath values name) values
            if isLatestAsyncSeq st1.asyncSeq name mint.2 then
              let acc1 :=
                match msg with
                | some m => if m = "" then acc else setByPath acc name (vStr m)
                | none => acc
              collectAsyncPhase cfg values rest (setFieldValidating st1 name false) acc1
            else collectAsyncPhase cfg values rest st1 acc

def collectSubmitErrors (cfg : EngineConfig) (st : EngineState) :
    EngineState × Value :=
  collectAsyncPhase cfg st.values (cfg.rulesMap.map Prod.fst) st
    (collectSyncPhase cfg st.values)

inductive SubmitOutcome : Type where
  | calledOnValid (vals : Value)
  | calledOnInvalid (errs : Value)

/-- `handleSubmit(onValid, onInvalid)` applied to one submit event: the
outcome says which of the two callbacks is called and with what. -/
def handleSubmit (cfg : EngineConfig) (st : EngineState) :
    EngineState × SubmitOutcome :=
  let st1 := touchAllRegisteredFields cfg
    { st with submitCount := st.submitCount + 1 }
  if cfg.blockSubmitWhileValidating && hasAnyTrue st1.validating then
    (st1, .calledOnInvalid st1.errors)
  else
    let res := collectSubmitErrors cfg st1
    let st2 := { res.1 with errors := res.2 }
    if hasKeys res.2 then (st2, .calledOnInvalid res.2)
    else (st2, .calledOnValid st2.values)

/-! ### Spec-side submit collection

From the words of the spec: "it iterates every registered path, runs sync
rules first; for any path that passes sync and owns an async rule, it
runs the async rule immediately (bypassing debounce) and waits for it
before collecting the final error tree used to decide valid/invalid." -/

def specSyncLoop (cfg : EngineConfig) (values : Value) :
    List String → Value → Value
  | [], acc => acc
  | name :: rest, acc =>
      specSyncLoop cfg values rest
        (match specSyncEval name values cfg.rulesMap with
         | some msg => if msg = "" then acc else setByPath acc name (vStr msg)
         | none => acc)

def specAsyncLoop (cfg : EngineConfig) (values : Value) :
    List String → Value → Value
  | [], acc => acc
  | name :: rest, acc =>
      specAsyncLoop cfg values rest
        (match (mapLookup cfg.rulesMap name).bind (fun r => r.validateAsync) with
         | none => acc
         | some va =>
             if jsTruthyMsg (specSyncEval name values cfg.rulesMap) then acc
             else
               match va (getByPath values name) values with
               | some msg =>
                   if msg = "" then acc else setByPath acc name (vStr msg)
               | none => acc)

/-- The spec's deterministic submit-time error tree: sync rules first for
every registered path, then the async rule (immediately and awaited) for
every path that passed sync and owns one. -/
def specSubmitErrors (cfg : EngineConfig) (values : Value) : Value :=
  specAsyncLoop cfg values (cfg.rulesMap.map Prod.fst)
    (specSyncLoop cfg values (cfg.rulesMap.map Prod.fst) (vObj []))

/-- A fresh engine: empty trees, empty tables. -/
def emptyState : EngineState :=
  ⟨vObj [], vObj [], vObj [], vObj [], vObj [], [], [], 0⟩

/-- A registered field name in its plain form: non-empty and without
dots, so that the error tree built at submit time is a flat object. -/
def FlatKey (k : String) : Prop := k ≠ "" ∧ hasDot k = false

instance (k : String) : Decidable (FlatKey k) :=
  inferInstanceAs (Decidable (k ≠ "" ∧ hasDot k = false))

theorem getByPath_flat (fs : List (String × Value)) (k : String)
    (h : FlatKey k) : getByPath (vObj fs) k = objGet fs k := by
  obtain ⟨h1, h2⟩ := h
  rw [getByPath, if_neg (by simp [isNullish]), if_neg h1, if_pos h2]
  rfl

theorem setByPath_flat (fs : List (String × Value)) (k : String) (v : Value)
    (h : FlatKey k) : setByPath (vObj fs) k v = vObj (objSet fs k v) := by
  obtain ⟨h1, h2⟩ := h
  rw [setByPath, if_neg h1, if_pos h2]
  rfl

/-- The entry the sync phase leaves for a field in the collected tree. -/
def syncEntryValue (cfg : EngineConfig) (values : Value) (name : String) :
    Value :=
  match getFieldError name values cfg.rulesMap with
  | some m => if m = "" then vUndef else vStr m
  | none => vUndef

theorem syncEntry_truthy (cfg : EngineConfig) (values : Value)
    (name : String) :
    (syncEntryValue cfg values name).truthy
      = jsTruthyMsg (getFieldError name values cfg.rulesMap) := by
  unfold syncEntryValue jsTruthyMsg
  cases getFieldError name values cfg.rulesMap with
  | none => rfl
  | some m =>
      by_cases hm : m = "" <;> simp [hm, truthy]

theorem syncErrLoop_eq_spec (cfg : EngineConfig) (values : Value) :
    ∀ (keys : List String) (acc : Value),
      syncErrLoop cfg values keys acc = specSyncLoop cfg values keys acc
  | [], acc => rfl
  | name :: rest, acc => by
      rw [syncErrLoop, specSyncLoop, getFieldError_eq_spec]
      exact syncErrLoop_eq_spec cfg values rest _

theorem syncErrLoop_obj (cfg : EngineConfig) (values : Value) :
    ∀ (keys : List String) (fs : List (String × Value)),
      (∀ j ∈ keys, FlatKey j) →
      ∃ gs, syncErrLoop cfg values keys (vObj fs) = vObj gs
  | [], fs, _ => ⟨fs, rfl⟩
  | name :: rest, fs, hf => by
      have hname : FlatKey name := hf name (by simp)
      have hrest : ∀ j ∈ rest, FlatKey j := fun j hj => hf j (by simp [hj])
      rw [syncErrLoop]
      cases hge : getFieldError name values cfg.rulesMap with
      | none => exact syncErrLoop_obj cfg values rest fs hrest
      | some m =>
          dsimp only
          by_cases hm : m = ""
          · rw [if_pos hm]
            exact syncErrLoop_obj cfg values rest fs hrest
          · rw [if_neg hm, setByPath_flat fs name _ hname]
            exact syncErrLoop_obj cfg values rest _ hrest

theorem syncErrLoop_frame (cfg : EngineConfig) (values : Value) :
    ∀ (keys : List String) (fs : List (String × Value)) (k : String),
      k ∉ keys → (∀ j ∈ keys, FlatKey j) → FlatKey k →
      getByPath (syncErrLoop cfg values keys (vObj fs)) k = objGet fs k
  | [], fs, k, _, _, hk => getByPath_flat fs k hk
  | name :: rest, fs, k, hnot, hf, hk => by
      have hname : FlatKey name := hf name (by simp)
      have hrest : ∀ j ∈ rest, FlatKey j := fun j hj => hf j (by simp [hj])
      have hkr : k ∉ rest := fun h => hnot (by simp [h])
      have hkn : k ≠ name := fun h => hnot (by simp [h])
      rw [syncErrLoop]
      cases hge : getFieldError name values cfg.rulesMap with
      | none => exact syncErrLoop_frame cfg values rest fs k hkr hrest hk
      | some m =>
          dsimp only
          by_cases hm : m = ""
          · rw [if_pos hm]
            exact syncErrLoop_frame cfg values rest fs k hkr hrest hk
          · rw [if_neg hm, setByPath_flat fs name _ hname,
              syncErrLoop_frame cfg values rest _ k hkr hrest hk]
            exact objGet_objSet_ne fs name k _ hkn

theorem syncErrLoop_get (cfg : EngineConfig) (values : Value) :
    ∀ (keys : List String) (fs : List (String × Value)) (k : String),
      k ∈ keys → keys.Nodup → (∀ j ∈ keys, FlatKey j) →
      objGet fs k = vUndef →
      getByPath (syncErrLoop cfg values keys (vObj fs)) k
        = syncEntryValue cfg values k
  | [], _, k, hk, _, _, _ => absurd hk (List.not_mem_nil k)
  | name :: rest, fs, k, hk, hnd, hf, hbase => by
      have hname : FlatKey name := hf name (by simp)
      have hrest : ∀ j ∈ rest, FlatKey j := fun j hj => hf j (by simp [hj])
      have hnd' := (List.nodup_cons.mp hnd).2
      rw [syncErrLoop]
      rcases List.mem_cons.mp hk with he | hmem
      · subst he
        have hkr : k ∉ rest := (List.nodup_cons.mp hnd).1
        cases hge : getFieldError k values cfg.rulesMap with
        | none =>
            rw [syncErrLoop_frame cfg values rest fs k hkr hrest
              (hf k (by simp)), hbase]
            simp [syncEntryValue, hge]
        | some m =>
            dsimp only
            by_cases hm : m = ""
            · rw [if_pos hm,
                syncErrLoop_frame cfg values rest fs k hkr hrest
                  (hf k (by simp)), hbase]
              simp [syncEntryValue, hge, hm]
            · rw [if_neg hm, setByPath_flat fs k _ (hf k (by simp)),
                syncErrLoop_frame cfg values rest _ k hkr hrest
                  (hf k (by simp)), objGet_objSet]
              simp [syncEntryValue, hge, hm]
      · have hnk : name ≠ k := by
          intro he
          exact (List.nodup_cons.mp hnd).1 (he ▸ hmem)
        cases hge : getFieldError name values cfg.rulesMap with
        | none => exact syncErrLoop_get cfg values rest fs k hmem hnd' hrest hbase
        | some m =>
            dsimp only
            by_cases hm : m = ""
            · rw [if_pos hm]
              exact syncErrLoop_get cfg values rest fs k hmem hnd' hrest hbase
            · rw [if_neg hm, setByPath_flat fs name _ hname]
              exact syncErrLoop_get cfg values rest _ k hmem hnd' hrest
                (by rw [objGet_objSet_ne fs name k _ (Ne.symm hnk)]; exact hbase)

theorem collectAsyncPhase_cons_none (cfg : EngineConfig) (values : Value)
    (name : String) (rest : List String) (st : EngineState) (acc : Value)
    (h : (mapLookup cfg.rulesMap name).bind (fun r => r.validateAsync) = none) :
    collectAsyncPhase cfg values (name :: rest) st acc
      = collectAsyncPhase cfg values rest st acc := by
  rw [collectAsyncPhase, h]

theorem collectAsyncPhase_cons_some (cfg : EngineConfig) (values : Value)
    (name : String) (rest : List String) (st : EngineState) (acc : Value)
    (va : Value → Value → Option String)
    (h : (mapLookup cfg.rulesMap name).bind (fun r => r.validateAsync)
      = some va) :
    collectAsyncPhase cfg values (name :: rest) st acc
      = (if (getByPath acc name).truthy = true then
          collectAsyncPhase cfg values rest st acc
         else
          if isLatestAsyncSeq
              (setFieldValidating
                { st with asyncSeq := (nextAsyncSeq st.asyncSeq name).1 }
                name true).asyncSeq
              name (nextAsyncSeq st.asyncSeq name).2 = true then
            collectAsyncPhase cfg values rest
              (setFieldValidating
                (setFieldValidating
                  { st with asyncSeq := (nextAsyncSeq st.asyncSeq name).1 }
                  name true) name false)
              (match va (getByPath values name) values with
               | some m => if m = "" then acc else setByPath acc name (vStr m)
               | none => acc)
          else
            collectAsyncPhase cfg values rest
              (setFieldValidating
                { st with asyncSeq := (nextAsyncSeq st.asyncSeq name).1 }
                name true) acc) := by
  rw [collectAsyncPhase, h]

theorem specAsyncLoop_cons_none (cfg : EngineConfig) (values : Value)
    (name : String) (rest : List String) (acc : Value)
    (h : (mapLookup cfg.rulesMap name).bind (fun r => r.validateAsync) = none) :
    specAsyncLoop cfg values (name :: rest) acc
      = specAsyncLoop cfg values rest acc := by
  rw [specAsyncLoop, h]

theorem specAsyncLoop_cons_some (cfg : EngineConfig) (values : Value)
    (name : String) (rest : List String) (acc : Value)
    (va : Value → Value → Option String)
    (h : (mapLookup cfg.rulesMap name).bind (fun r => r.validateAsync)
      = some va) :
    specAsyncLoop cfg values (name :: rest) acc
      = specAsyncLoop cfg values rest
          (if jsTruthyMsg (specSyncEval name values cfg.rulesMap) = true then acc
           else
            match va (getByPath values name) values with
            | some msg => if msg = "" then acc else setByPath acc name (vStr msg)
            | none => acc) := by
  rw [specAsyncLoop, h]

theorem collectAsyncPhase_state_values (cfg : EngineConfig) (values : Value) :
    ∀ (keys : List String) (st : EngineState) (acc : Value),
      (collectAsyncPhase cfg values keys st acc).1.values = st.values
  | [], st, acc => rfl
  | name :: rest, st, acc => by
      cases hva : (mapLookup cfg.rulesMap name).bind (fun r => r.validateAsync) with
      | none =>
          rw [collectAsyncPhase_cons_none cfg values name rest st acc hva]
          exact collectAsyncPhase_state_values cfg values rest st acc
      | some va =>
          rw [collectAsyncPhase_cons_some cfg values name rest st acc va hva]
          by_cases hc : (getByPath acc name).truthy = true
          · rw [if_pos hc]
            exact collectAsyncPhase_state_values cfg values rest st acc
          · rw [if_neg hc]
            split
            · rw [collectAsyncPhase_state_values cfg values rest _ _]
              rfl
            · rw [collectAsyncPhase_state_values cfg values rest _ _]
              rfl

/-- Minting a sequence number makes it the latest. -/
theorem isLatest_after_mint (m : List (String × Nat)) (k : String) :
    isLatestAsyncSeq (nextAsyncSeq m k).1 k (nextAsyncSeq m k).2 = true := by
  simp [isLatestAsyncSeq, nextAsyncSeq, mapLookup_mapSet]

/-- The error tree the async phase produces depends only on the rule
registry, the values tree and the accumulator, never on the starting
engine state: the freshly minted sequence number is always the latest at
the immediately following check, whatever the sequence table held. -/
theorem collectAsyncPhase_tree_state_indep (cfg : EngineConfig) (values : Value) :
    ∀ (keys : List String) (st st' : EngineState) (acc : Value),
      (collectAsyncPhase cfg values keys st acc).2
        = (collectAsyncPhase cfg values keys st' acc).2
  | [], _, _, _ => rfl
  | name :: rest, st, st', acc => by
      cases hva : (mapLookup cfg.rulesMap name).bind (fun r => r.validateAsync) with
      | none =>
          rw [collectAsyncPhase_cons_none cfg values name rest st acc hva,
            collectAsyncPhase_cons_none cfg values name rest st' acc hva]
          exact collectAsyncPhase_tree_state_indep cfg values rest st st' acc
      | some va =>
          rw [collectAsyncPhase_cons_some cfg values name rest st acc va hva,
            collectAsyncPhase_cons_some cfg values name rest st' acc va hva]
          by_cases hc : (getByPath acc name).truthy = true
          · rw [if_pos hc, if_pos hc]
            exact collectAsyncPhase_tree_state_indep cfg values rest st st' acc
          · rw [if_neg hc, if_neg hc]
            rw [if_pos (show isLatestAsyncSeq
                (setFieldValidating
                  { st with asyncSeq := (nextAsyncSeq st.asyncSeq name).1 }
                  name true).asyncSeq name
                (nextAsyncSeq st.asyncSeq name).2 = true
              from isLatest_after_mint st.asyncSeq name)]
            rw [if_pos (show isLatestAsyncSeq
                (setFieldValidating
                  { st' with asyncSeq := (nextAsyncSeq st'.asyncSeq name).1 }
                  name true).asyncSeq name
                (nextAsyncSeq st'.asyncSeq name).2 = true
              from isLatest_after_mint st'.asyncSeq name)]
            exact collectAsyncPhase_tree_state_indep cfg values rest _ _ _

/-- The collected submit-time error tree only depends on the values tree
(and the registry). -/
theorem collectSubmitErrors_tree_eq (cfg : EngineConfig) (st st' : EngineState)
    (h : st.values = st'.values) :
    (collectSubmitErrors cfg st).2 = (collectSubmitErrors cfg st').2 := by
  unfold collectSubmitErrors
  rw [h]
  exact collectAsyncPhase_tree_state_indep cfg st'.values _ st st' _

theorem asyncPhase_eq (cfg : EngineConfig) (values : Value) :
    ∀ (keys : List String) (st : EngineState) (fs : List (String × Value)),
      (∀ j ∈ keys, FlatKey j) → keys.Nodup →
      (∀ k ∈ keys, getByPath (vObj fs) k = syncEntryValue cfg values k) →
      (collectAsyncPhase cfg values keys st (vObj fs)).2
        = specAsyncLoop cfg values keys (vObj fs)
  | [], st, fs, _, _, _ => rfl
  | name :: rest, st, fs, hf, hnd, hinv => by
      have hname : FlatKey name := hf name (by simp)
      have hrest : ∀ j ∈ rest, FlatKey j := fun j hj => hf j (by simp [hj])
      have hnd' := (List.nodup_cons.mp hnd).2
      have hinvr : ∀ k ∈ rest, getByPath (vObj fs) k = syncEntryValue cfg values k :=
        fun k hk => hinv k (by simp [hk])
      cases hva : (mapLookup cfg.rulesMap name).bind (fun r => r.validateAsync) with
      | none =>
          rw [collectAsyncPhase_cons_none cfg values name rest st _ hva,
            specAsyncLoop_cons_none cfg values name rest _ hva]
          exact asyncPhase_eq cfg values rest st fs hrest hnd' hinvr
      | some va =>
          rw [collectAsyncPhase_cons_some cfg values name rest st _ va hva,
            specAsyncLoop_cons_some cfg values name rest _ va hva]
          have hcond : (getByPath (vObj fs) name).truthy
              = jsTruthyMsg (specSyncEval name values cfg.rulesMap) := by
            rw [hinv name (by simp), syncEntry_truthy, getFieldError_eq_spec]
          by_cases hc : jsTruthyMsg (specSyncEval name values cfg.rulesMap) = true
          · rw [if_pos (hcond.trans hc), if_pos hc]
            exact asyncPhase_eq cfg values rest st fs hrest hnd' hinvr
          · rw [if_neg (fun h => hc (hcond.symm.trans h)), if_neg hc]
            rw [if_pos (show isLatestAsyncSeq
                (setFieldValidating
                  { st with asyncSeq := (nextAsyncSeq st.asyncSeq name).1 }
                  name true).asyncSeq name
                (nextAsyncSeq st.asyncSeq name).2 = true
              from isLatest_after_mint st.asyncSeq name)]
            cases hmsg : va (getByPath values name) values with
            | none => exact asyncPhase_eq cfg values rest _ fs hrest hnd' hinvr
            | some m =>
                dsimp only
                by_cases hm : m = ""
                · rw [if_pos hm]
                  exact asyncPhase_eq cfg values rest _ fs hrest hnd' hinvr
                · rw [if_neg hm, setByPath_flat fs name _ hname]
                  refine asyncPhase_eq cfg values rest _ _ hrest hnd' ?_
                  intro k hk
                  have hkn : k ≠ name := by
                    intro he
                    exact (List.nodup_cons.mp hnd).1 (he ▸ hk)
                  rw [getByPath_flat _ k (hrest k hk),
                    objGet_objSet_ne fs name k _ hkn,
                    ← getByPath_flat fs k (hrest k hk)]
                  exact hinvr k hk

theorem collectSubmitErrors_eq_spec (cfg : EngineConfig) (st : EngineState)
    (hf : ∀ j ∈ cfg.rulesMap.map Prod.fst, FlatKey j)
    (hnd : (cfg.rulesMap.map Prod.fst).Nodup) :
    (collectSubmitErrors cfg st).2 = specSubmitErrors cfg st.values := by
  obtain ⟨gs, hgs⟩ := syncErrLoop_obj cfg st.values (cfg.rulesMap.map Prod.fst) [] hf
  have hinv : ∀ k ∈ cfg.rulesMap.map Prod.fst,
      getByPath (vObj gs) k = syncEntryValue cfg st.values k := by
    intro k hk
    rw [← hgs]
    exact syncErrLoop_get cfg st.values _ [] k hk hnd hf (by simp [objGet])
  show (collectAsyncPhase cfg st.values (cfg.rulesMap.map Prod.fst) st
      (collectSyncPhase cfg st.values)).2 = _
  rw [show collectSyncPhase cfg st.values = vObj gs from hgs,
    asyncPhase_eq cfg st.values _ st gs hf hnd hinv]
  rw [specSubmitErrors, ← syncErrLoop_eq_spec cfg st.values,
    show syncErrLoop cfg st.values (cfg.rulesMap.map Prod.fst) (vObj [])
      = vObj gs from hgs]

/-! ### Invariance lemmas for the values tree -/

theorem validateFieldAsync_values (cfg : EngineConfig) (st : EngineState)
    (name : String) (nv : Value) (b : Bool) :
    (validateFieldAsync cfg st name nv b).state.values = st.values := by
  unfold validateFieldAsync
  dsimp only
  repeat' split
  all_goals rfl

theorem runValidateForKeys_values (cfg : EngineConfig) (st : EngineState)
    (keys : List String) (next : Value) :
    (runValidateForKeys cfg st keys next).values = st.values := by
  induction keys generalizing st with
  | nil => rfl
  | cons k ks ih =>
      have e : runValidateForKeys cfg st (k :: ks) next
          = runValidateForKeys cfg
              ((validateFieldAsync cfg (validateFieldSyncOp cfg st k next)
                k next false).state) ks next := rfl
      rw [e, ih, validateFieldAsync_values]
      rfl

theorem appendOp_values (cfg : EngineConfig) (st : EngineState)
    (name : String) (v : Value) (opts : ArrayOpts) :
    (appendOp cfg st name v opts).values
      = setByPath st.values name (vArr (getArrayAtPath st.values name ++ [v])) := by
  simp only [appendOp]
  repeat' split
  all_goals try rw [runValidateForKeys_values]
  all_goals rfl

/-! ### Claim theorems and witnesses -/

/-- C1: whenever an async validation attempt resolves, its result is
applied to the error/validating trees only if the sequence number
captured at the start of the attempt equals the table's current value for
the path at resolution time; a superseded attempt is discarded without
changing any state.  In particular, if attempt A is minted before attempt
B (with any engine events in between), then applying A's resolution after
B has been minted leaves the state — including anything B wrote —
unchanged. -/
theorem formora_c1_async_staleness_discipline :
    (∀ (st : EngineState) (p : String) (seq : Nat) (msg : Option String),
      seq ≠ seqOf st p → applyAsyncResolution st p seq msg = st) ∧
    (∀ (st : EngineState) (p : String) (seq : Nat) (msg : Option String),
      seq = seqOf st p →
      applyAsyncResolution st p seq msg
        = setFieldValidating (setFieldError st p msg) p false) ∧
    (∀ (st0 st2 st3 : EngineState) (p : String) (msg : Option String),
      Steps (stepEvent st0 (.mintSeq p)) st2 →
      Steps (stepEvent st2 (.mintSeq p)) st3 →
      applyAsyncResolution st3 p (seqOf (stepEvent st0 (.mintSeq p)) p) msg
        = st3) := by
  refine ⟨applyAsyncResolution_stale, fun st p seq msg h => ?_, ?_⟩
  · subst h
    have hc : isLatestAsyncSeq st.asyncSeq p (seqOf st p) = true := by
      simp [isLatestAsyncSeq, seqOf]
    rw [applyAsyncResolution, if_pos hc]
  · intro st0 st2 st3 p msg h12 h23
    have h1 : seqOf (stepEvent st0 (.mintSeq p)) p ≤ seqOf st2 p :=
      seqOf_le_steps h12 p
    have h2 : seqOf (stepEvent st2 (.mintSeq p)) p = seqOf st2 p + 1 :=
      seqOf_mint st2 p
    have h3 : seqOf (stepEvent st2 (.mintSeq p)) p ≤ seqOf st3 p :=
      seqOf_le_steps h23 p
    exact applyAsyncResolution_stale st3 p _ msg (by omega)

/-- Witness for C1 at a concrete engine: attempt A (seq 1) is minted,
then attempt B (seq 2); resolving A afterwards changes nothing, a stale
sequence number is never applied, and a current one is. -/
theorem formora_c1_witness :
    applyAsyncResolution emptyState "email" 5 (some "x") = emptyState ∧
    applyAsyncResolution (stepEvent emptyState (.mintSeq "email")) "email" 1
        (some "taken")
      = setFieldValidating
          (setFieldError (stepEvent emptyState (.mintSeq "email")) "email"
            (some "taken")) "email" false ∧
    applyAsyncResolution
        (stepEvent (stepEvent emptyState (.mintSeq "email")) (.mintSeq "email"))
        "email" (seqOf (stepEvent emptyState (.mintSeq "email")) "email")
        (some "taken")
      = stepEvent (stepEvent emptyState (.mintSeq "email")) (.mintSeq "email") :=
  ⟨formora_c1_async_staleness_discipline.1 emptyState "email" 5 (some "x")
      (by decide),
   formora_c1_async_staleness_discipline.2.1
      (stepEvent emptyState (.mintSeq "email")) "email" 1 (some "taken")
      (by decide),
   formora_c1_async_staleness_discipline.2.2 emptyState
      (stepEvent emptyState (.mintSeq "email"))
      (stepEvent (stepEvent emptyState (.mintSeq "email")) (.mintSeq "email"))
      "email" (some "taken") Relation.ReflTransGen.refl
      Relation.ReflTransGen.refl⟩

/-- C3: on an array of length `n` at a path, the operations `remove` and
`replace` with an out-of-range index, and `move`/`swap` with equal or
out-of-range indices, leave the whole engine state — values, every
metadata tree, the async sequence table and the timer table —
byte-for-byte unchanged (the operations are total, so no exception
arises). -/
theorem formora_c3_out_of_range_noop (cfg : EngineConfig) (st : EngineState)
    (name : String) (xs : List Value) (index fromIdx toIdx idxA idxB : Int)
    (v : Value) (opts : ArrayOpts)
    (hval : getByPath st.values name = vArr xs) :
    (index < 0 ∨ (xs.length : Int) ≤ index →
      removeOp cfg st name index opts = st ∧
      replaceOp cfg st name index v opts = st) ∧
    (fromIdx = toIdx ∨ fromIdx < 0 ∨ toIdx < 0 ∨
        (xs.length : Int) ≤ fromIdx ∨ (xs.length : Int) ≤ toIdx →
      moveOp cfg st name fromIdx toIdx = st) ∧
    (idxA = idxB ∨ idxA < 0 ∨ idxB < 0 ∨
        (xs.length : Int) ≤ idxA ∨ (xs.length : Int) ≤ idxB →
      swapOp cfg st name idxA idxB = st) := by
  have harr : getArrayAtPath st.values name = xs := by
    rw [getArrayAtPath, hval]
  refine ⟨fun hidx => ⟨?_, ?_⟩, fun hmv => ?_, fun hsw => ?_⟩
  · rw [removeOp, harr, if_pos (Or.inr hidx)]
  · rw [replaceOp, harr, if_pos (Or.inr hidx)]
  · rw [moveOp, hval]
    simp only
    by_cases h1 : fromIdx = toIdx
    · rw [if_pos h1]
    · rw [if_neg h1]
      by_cases h2 : fromIdx < 0 ∨ toIdx < 0
      · rw [if_pos h2]
      · rw [if_neg h2]
        have h3 : (xs.length : Int) ≤ fromIdx ∨ (xs.length : Int) ≤ toIdx := by
          push_neg at h2
          rcases hmv with h | h | h | h | h
          · exact absurd h h1
          · exact absurd h (by omega)
          · exact absurd h (by omega)
          · exact Or.inl h
          · exact Or.inr h
        rw [if_pos h3]
  · rw [swapOp, hval]
    simp only
    by_cases h1 : idxA = idxB
    · rw [if_pos h1]
    · rw [if_neg h1]
      by_cases h2 : idxA < 0 ∨ idxB < 0
      · rw [if_pos h2]
      · rw [if_neg h2]
        have h3 : (xs.length : Int) ≤ idxA ∨ (xs.length : Int) ≤ idxB := by
          push_neg at h2
          rcases hsw with h | h | h | h | h
          · exact absurd h h1
          · exact absurd h (by omega)
          · exact absurd h (by omega)
          · exact Or.inl h
          · exact Or.inr h
        rw [if_pos h3]

def c3State : EngineState :=
  { emptyState with values := vObj [("items", vArr [vStr "a", vStr "b"])] }

def c3Config : EngineConfig := ⟨[], 0, true, vObj []⟩

/-- Witness for C3 at a concrete two-element array: index 5 (and 5/1,
0/0) are no-ops for all four operations. -/
theorem formora_c3_witness :
    removeOp c3Config c3State "items" 5 ⟨false, false⟩ = c3State ∧
    replaceOp c3Config c3State "items" 5 (vStr "z") ⟨false, false⟩ = c3State ∧
    moveOp c3Config c3State "items" 0 5 = c3State ∧
    swapOp c3Config c3State "items" 1 1 = c3State := by
  have h := formora_c3_out_of_range_noop c3Config c3State "items"
    [vStr "a", vStr "b"] 5 0 5 1 1 (vStr "z") ⟨false, false⟩ rfl
  exact ⟨(h.1 (by decide)).1, (h.1 (by decide)).2,
    h.2.1 (by decide), h.2.2 (by decide)⟩

def c4Config : EngineConfig := ⟨[], 0, true, vObj []⟩

def c4StateMove : EngineState :=
  { emptyState with
      values := vObj [("items", vArr [vStr "A", vStr "B", vStr "C"])],
      errors := vObj [("items", vArr [vStr "e"])] }

def c4StateRemove : EngineState :=
  { emptyState with
      values := vObj [("items", vArr [vStr "A", vStr "B"])],
      errors := vObj [("items", vArr [vUndef, vStr "e"])],
      touched := vObj [("items", vArr [vUndef, vBool true])] }

/-- C4: structural array operations apply the same positional remap to
the metadata branches as to the values.  Concretely: with values
`[A, B, C]` and an error at index 0, `move(0, 2)` yields values
`[B, C, A]` with the error at index 2 and no longer at index 0; with
`[A, B]` and error/touched at index 1, `remove(0)` yields `[B]` with the
error and touched at index 0 and nothing left at index 1. -/
theorem formora_c4_metadata_remap :
    getByPath (moveOp c4Config c4StateMove "items" 0 2).values "items"
        = vArr [vStr "B", vStr "C", vStr "A"] ∧
    getByPath (moveOp c4Config c4StateMove "items" 0 2).errors "items.2"
        = vStr "e" ∧
    getByPath (moveOp c4Config c4StateMove "items" 0 2).errors "items.0"
        = vUndef ∧
    getByPath (removeOp c4Config c4StateRemove "items" 0 ⟨false, false⟩).values
        "items" = vArr [vStr "B"] ∧
    getByPath (removeOp c4Config c4StateRemove "items" 0 ⟨false, false⟩).errors
        "items.0" = vStr "e" ∧
    getByPath (removeOp c4Config c4StateRemove "items" 0 ⟨false, false⟩).touched
        "items.0" = vBool true ∧
    getByPath (removeOp c4Config c4StateRemove "items" 0 ⟨false, false⟩).errors
        "items.1" = vUndef :=
  ⟨rfl, rfl, rfl, rfl, rfl, rfl, rfl⟩

/-- C10: `append(path, v)` treats whatever non-array value currently sits
at the path (undefined, null, scalar or object) as the empty array: the
resulting values tree holds the one-element array `[v]` at the path, so
the prior non-array is never preserved; the operation is total. -/
theorem formora_c10_append_non_array (cfg : EngineConfig) (st : EngineState)
    (name : String) (v : Value) (opts : ArrayOpts)
    (hname : name ≠ "")
    (hnotarr : (getByPath st.values name).isArray = false) :
    getByPath (appendOp cfg st name v opts).values name = vArr [v] := by
  have harr : getArrayAtPath st.values name = [] := by
    rw [getArrayAtPath]
    cases hv : getByPath st.values name <;> simp_all [isArray]
  rw [appendOp_values, harr, List.nil_append]
  exact get_set_roundtrip st.values name (vArr [v]) hname

/-- Witness for C10: appending to a path currently holding a scalar
yields the one-element array. -/
theorem formora_c10_witness :
    getByPath
      (appendOp c3Config
        { emptyState with values := vObj [("a", vStr "x")] } "a" (vNum 1)
        ⟨false, false⟩).values "a" = vArr [vNum 1] :=
  formora_c10_append_non_array c3Config
    { emptyState with values := vObj [("a", vStr "x")] } "a" (vNum 1)
    ⟨false, false⟩ (by decide) rfl

/-- C6: for every tree, every non-empty path and every value, reading
back immediately after writing returns the written value; and the
value-level rendering of copy-on-write structural sharing holds: `set`
and `unset` leave every top-level member other than the path's first
segment exactly as it was (the input tree itself is untouched, the
operations being pure functions of it). -/
theorem formora_c6_roundtrip_and_sharing (tree : Value) (path k : String)
    (v : Value) (fs : List (String × Value)) (hpath : path ≠ "") :
    getByPath (setByPath tree path v) path = v ∧
    (k ≠ (splitPath path).headD "" →
      jsMember (setByPath (vObj fs) path v) k = jsMember (vObj fs) k ∧
      jsMember (unsetByPath (vObj fs) path) k = jsMember (vObj fs) k) :=
  ⟨get_set_roundtrip tree path v hpath,
   fun hk => ⟨setByPath_sibling fs path k v hpath hk,
     unsetByPath_sibling fs path k hpath hk⟩⟩

/-- Witness for C6 on a concrete nested tree and path. -/
theorem formora_c6_witness :
    getByPath
        (setByPath (vObj [("user", vObj [("name", vStr "n")]), ("b", vNum 2)])
          "user.email" (vStr "x")) "user.email" = vStr "x" ∧
    jsMember
        (setByPath (vObj [("user", vObj [("name", vStr "n")]), ("b", vNum 2)])
          "user.email" (vStr "x")) "b" = vNum 2 ∧
    jsMember
        (unsetByPath (vObj [("user", vObj [("name", vStr "n")]), ("b", vNum 2)])
          "user.name") "b" = vNum 2 := by
  have h := formora_c6_roundtrip_and_sharing
    (vObj [("user", vObj [("name", vStr "n")]), ("b", vNum 2)])
    "user.email" "b" (vStr "x")
    [("user", vObj [("name", vStr "n")]), ("b", vNum 2)] (by decide)
  have h2 := formora_c6_roundtrip_and_sharing
    (vObj [("user", vObj [("name", vStr "n")]), ("b", vNum 2)])
    "user.name" "b" (vStr "x")
    [("user", vObj [("name", vStr "n")]), ("b", vNum 2)] (by decide)
  exact ⟨h.1, (h.2 (by decide)).1, (h2.2 (by decide)).2⟩

theorem validateFieldAsync_syncfail (cfg : EngineConfig) (st : EngineState)
    (name : String) (nv : Value) (bp : Bool) (m : String)
    (hsync : getFieldError name nv cfg.rulesMap = some m) (hm : m ≠ "") :
    validateFieldAsync cfg st name nv bp =
      ⟨setFieldValidating
        (setFieldError
          (clearDebounceTimer
            { st with asyncSeq := (nextAsyncSeq st.asyncSeq name).1 } name)
          name (some m))
        name false, 0, false⟩ := by
  simp only [validateFieldAsync, hsync]
  rw [if_pos (show jsTruthyMsg (some m) = true by simp [jsTruthyMsg, hm])]

theorem debounceTimerFire_syncfail (cfg : EngineConfig) (st : EngineState)
    (name : String) (schedSeq : Nat) (m : String)
    (hlat : isLatestAsyncSeq st.asyncSeq name schedSeq = true)
    (hsync : getFieldError name st.values cfg.rulesMap = some m)
    (hm : m ≠ "") :
    debounceTimerFire cfg st name schedSeq =
      ⟨setFieldValidating
        (setFieldError { st with timers := mapDelete st.timers name } name
          (some m))
        name false, 0, true⟩ := by
  simp only [debounceTimerFire, hsync, hlat, Bool.not_true]
  rw [if_neg (by simp)]
  rw [if_pos (show jsTruthyMsg (some m) = true by simp [jsTruthyMsg, hm])]

/-- C7: when the sync rules fail for the current value with a (truthy)
message, the async rule callback is never invoked (its call count in that
activation is 0), the field is marked with the sync error, and the
validating flag for the path is not set true (a previously clear flag
stays clear).  This holds both at the initial activation of
`validateFieldAsync` and at the debounce-timer re-check (against the
latest value tree) before the async rule would run. -/
theorem formora_c7_sync_failure_blocks_async :
    (∀ (cfg : EngineConfig) (st : EngineState) (name : String) (nv : Value)
        (bp : Bool) (m : String) (vs : List (String × Value)),
      getFieldError name nv cfg.rulesMap = some m → m ≠ "" → name ≠ "" →
      st.validating = vObj vs →
      getByPath st.validating name ≠ vBool true →
      (validateFieldAsync cfg st name nv bp).asyncCalls = 0 ∧
      getByPath (validateFieldAsync cfg st name nv bp).state.errors name
        = vStr m ∧
      getByPath (validateFieldAsync cfg st name nv bp).state.validating name
        ≠ vBool true) ∧
    (∀ (cfg : EngineConfig) (st : EngineState) (name : String)
        (schedSeq : Nat) (m : String) (vs : List (String × Value)),
      isLatestAsyncSeq st.asyncSeq name schedSeq = true →
      getFieldError name st.values cfg.rulesMap = some m → m ≠ "" →
      name ≠ "" →
      st.validating = vObj vs →
      getByPath st.validating name ≠ vBool true →
      (debounceTimerFire cfg st name schedSeq).asyncCalls = 0 ∧
      getByPath (debounceTimerFire cfg st name schedSeq).state.errors name
        = vStr m ∧
      getByPath (debounceTimerFire cfg st name schedSeq).state.validating name
        ≠ vBool true) := by
  constructor
  · intro cfg st name nv bp m vs hsync hm hname hvroot hvprev
    rw [validateFieldAsync_syncfail cfg st name nv bp m hsync hm]
    refine ⟨rfl, ?_, ?_⟩
    · show getByPath
        (if m = "" then unsetLocalByPath st.errors name
         else setByPath st.errors name (vStr m)) name = vStr m
      rw [if_neg hm]
      exact get_set_roundtrip st.errors name (vStr m) hname
    · show getByPath (unsetLocalByPath st.validating name) name ≠ vBool true
      rw [hvroot]
      rcases get_unsetLocal vs name hname with h | h
      · rw [h]
        exact fun hc => Value.noConfusion hc
      · rw [h, ← hvroot]
        exact hvprev
  · intro cfg st name schedSeq m vs hlat hsync hm hname hvroot hvprev
    rw [debounceTimerFire_syncfail cfg st name schedSeq m hlat hsync hm]
    refine ⟨rfl, ?_, ?_⟩
    · show getByPath
        (if m = "" then unsetLocalByPath st.errors name
         else setByPath st.errors name (vStr m)) name = vStr m
      rw [if_neg hm]
      exact get_set_roundtrip st.errors name (vStr m) hname
    · show getByPath (unsetLocalByPath st.validating name) name ≠ vBool true
      rw [hvroot]
      rcases get_unsetLocal vs name hname with h | h
      · rw [h]
        exact fun hc => Value.noConfusion hc
      · rw [h, ← hvroot]
        exact hvprev

def c7Config : EngineConfig :=
  ⟨[("email", { required := some (.flag true),
                validateAsync := some (fun _ _ => some "taken") })], 50, true,
    vObj []⟩

def c7TimerState : EngineState :=
  { emptyState with asyncSeq := [("email", 1)] }

/-- Witness for C7: with a required rule and an async rule on `email` and
an empty value, both the immediate activation and a still-current timer
callback set the sync message, invoke no async rule, and leave the
validating flag unset. -/
theorem formora_c7_witness :
    ((validateFieldAsync c7Config emptyState "email" (vObj []) false).asyncCalls
        = 0 ∧
      getByPath (validateFieldAsync c7Config emptyState "email" (vObj [])
          false).state.errors "email" = vStr "This field is required" ∧
      getByPath (validateFieldAsync c7Config emptyState "email" (vObj [])
          false).state.validating "email" ≠ vBool true) ∧
    ((debounceTimerFire c7Config c7TimerState "email" 1).asyncCalls = 0 ∧
      getByPath (debounceTimerFire c7Config c7TimerState "email"
          1).state.errors "email" = vStr "This field is required" ∧
      getByPath (debounceTimerFire c7Config c7TimerState "email"
          1).state.validating "email" ≠ vBool true) :=
  ⟨formora_c7_sync_failure_blocks_async.1 c7Config emptyState "email"
      (vObj []) false "This field is required" [] rfl (by decide) (by decide)
      rfl (fun hc => Value.noConfusion hc),
   formora_c7_sync_failure_blocks_async.2 c7Config c7TimerState "email" 1
      "This field is required" [] rfl rfl (by decide) (by decide) rfl
      (fun hc => Value.noConfusion hc)⟩

def bracketTree : Value := vObj [("a", vArr [vStr "x"])]

/-- C8 counterexample: bracket-index form is not accepted by the path
codec.  On the tree `\x7ba: ["x"]\x7d` the bracket path `a[0]` reads
`undefined` while the equivalent dot path `a.0` reads `"x"`, so get with
a bracket-form path does not behave identically to the dot-form path. -/
theorem formora_c8_counterexample :
    getByPath bracketTree "a[0]" = vUndef ∧
    getByPath bracketTree "a.0" = vStr "x" ∧
    getByPath bracketTree "a[0]" ≠ getByPath bracketTree "a.0" := by
  refine ⟨rfl, rfl, fun h => ?_⟩
  have h' : (vUndef : Value) = vStr "x" := h
  exact Value.noConfusion h'

/-- C5: sync rule evaluation applies the built-in checks in the fixed
order required, pattern, minLength/maxLength, min/max, then the custom
validate callback, returning the message of the first failing check
(later checks cannot override it); pattern and the length bounds fire
only on non-empty strings, and min/max compare the value coerced to a
number, skipping non-coercible values.  All of this is the content of
`specSyncEval`, the spec-worded fixed-precedence chain, with which the
source's `getFieldError` coincides. -/
theorem formora_c5_sync_precedence (name : String) (values : Value)
    (rulesMap : List (String × Rules)) :
    getFieldError name values rulesMap = specSyncEval name values rulesMap :=
  getFieldError_eq_spec name values rulesMap

/-! ### Exception semantics of the path codec (for C9)

`Except`-valued variants of the three accessors in which every raw JS
member access/assignment/delete goes through `accessE`, which throws
(`Except.error`) exactly when its base is `null`/`undefined` — the only
exception JS could raise in this code.  The source's guards route around
every such access, which is what the totality theorem states. -/

def isOkE (e : Except String Value) : Bool :=
  match e with
  | .ok _ => true
  | .error _ => false

/-- One raw member access/assignment on `base`: JS throws a `TypeError`
iff the base is `null`/`undefined`; otherwise the operation yields the
given result. -/
def accessE (base : Value) (val : Value) : Except String Value :=
  if base.isNullish then .error "TypeError: base is null or undefined"
  else .ok val

def getPartsE : Value → List String → Except String Value
  | cur, [] => .ok cur
  | cur, k :: ks =>
      if cur.isNullish then .ok vUndef
      else
        match cur with
        | vArr xs =>
            match segToNat k with
            | some n => do
                let nxt ← accessE cur (arrGet xs n)
                getPartsE nxt ks
            | none => .ok vUndef
        | vObj fs => do
            let nxt ← accessE cur (objGet fs k)
            getPartsE nxt ks
        | _ => .ok vUndef

def getByPathE (obj : Value) (path : String) : Except String Value :=
  if obj.isNullish then .ok vUndef
  else if path = "" then .ok vUndef
  else if hasDot path = false then accessE obj (jsMember obj path)
  else getPartsE obj (splitPath path)

def setGoE (cur : Value) (parts : List String) (value : Value) :
    Except String Value :=
  match parts with
  | [] => .ok cur
  | [k] =>
      match cur with
      | vArr xs =>
          match segToNat k with
          | some n => accessE cur (vArr (arrSet xs n value))
          | none => .ok cur
      | vObj fs => accessE cur (vObj (objSet fs k value))
      | _ => .ok cur
  | k :: k2 :: rest =>
      match cur with
      | vArr xs =>
          match segToNat k with
          | none => .ok cur
          | some n => do
              let child ← accessE cur (childFor (arrGet xs n) (segToNat k2).isSome)
              let w ← setGoE child (k2 :: rest) value
              accessE cur (vArr (arrSet xs n w))
      | vObj fs => do
          let child ← accessE cur (childFor (objGet fs k) (segToNat k2).isSome)
          let w ← setGoE child (k2 :: rest) value
          accessE cur (vObj (objSet fs k w))
      | _ => .ok cur

def setByPathE (obj : Value) (path : String) (value : Value) :
    Except String Value :=
  if path = "" then .ok obj
  else if hasDot path = false then
    .ok (vObj (objSet (spreadFields obj) path value))
  else setGoE (vObj (spreadFields obj)) (splitPath path) value

def unsetGoE (cur : Value) : List String → Except String Value
  | [] => .ok cur
  | [last] =>
      match cur with
      | vArr xs =>
          match segToNat last with
          | some n =>
              accessE cur (vArr (if n < xs.length then arrSet xs n vUndef else xs))
          | none => .ok cur
      | vObj fs => accessE cur (vObj (objDelete fs last))
      | _ => .ok cur
  | part :: rest =>
      let nextSource := jsMember cur part
      if nextSource.isNullish || !nextSource.typeofObject then .ok cur
      else
        match cur with
        | vObj fs => do
            let w ← unsetGoE nextSource rest
            accessE cur (vObj (objSet fs part w))
        | vArr xs =>
            match canonIndex part with
            | some n => do
                let w ← unsetGoE nextSource rest
                accessE cur (vArr (arrSet xs n w))
            | none => .ok cur
        | _ => .ok cur

def unsetByPathE (obj : Value) (path : String) : Except String Value :=
  if obj.isNullish then .ok obj
  else if path = "" then .ok obj
  else unsetGoE obj (splitPath path)

theorem getPartsE_ok : ∀ (parts : List String) (cur : Value),
    isOkE (getPartsE cur parts) = true
  | [], cur => rfl
  | k :: ks, cur => by
      cases cur with
      | vUndef => rfl
      | vNull => rfl
      | vBool b => rfl
      | vNum q => rfl
      | vStr s => rfl
      | vArr xs =>
          have e : getPartsE (vArr xs) (k :: ks)
              = (match segToNat k with
                 | some n => do
                     let nxt ← accessE (vArr xs) (arrGet xs n)
                     getPartsE nxt ks
                 | none => .ok vUndef) := rfl
          rw [e]
          cases hk : segToNat k with
          | none => rfl
          | some n => exact getPartsE_ok ks (arrGet xs n)
      | vObj fs => exact getPartsE_ok ks (objGet fs k)

theorem setGoE_ok : ∀ (parts : List String) (cur : Value) (v : Value),
    cur.isNullish = false → isOkE (setGoE cur parts v) = true
  | [], cur, v, _ => rfl
  | [k], cur, v, hc => by
      cases cur with
      | vArr xs =>
          have e : setGoE (vArr xs) [k] v
              = (match segToNat k with
                 | some n => accessE (vArr xs) (vArr (arrSet xs n v))
                 | none => .ok (vArr xs)) := rfl
          rw [e]
          cases hk : segToNat k with
          | none => rfl
          | some n => rfl
      | vObj fs => rfl
      | vUndef => exact absurd hc (by simp [isNullish])
      | vNull => exact absurd hc (by simp [isNullish])
      | vBool b => rfl
      | vNum q => rfl
      | vStr s => rfl
  | k :: k2 :: rest, cur, v, hc => by
      have hchild : ∀ existing : Value,
          (childFor existing (segToNat k2).isSome).isNullish = false := by
        intro existing
        unfold childFor
        split <;> (cases existing <;> rfl)
      cases cur with
      | vArr xs =>
          have e : setGoE (vArr xs) (k :: k2 :: rest) v
              = (match segToNat k with
                 | none => .ok (vArr xs)
                 | some n => do
                     let child ← accessE (vArr xs)
                       (childFor (arrGet xs n) (segToNat k2).isSome)
                     let w ← setGoE child (k2 :: rest) v
                     accessE (vArr xs) (vArr (arrSet xs n w))) := rfl
          rw [e]
          cases hk : segToNat k with
          | none => rfl
          | some n =>
              have ih := setGoE_ok (k2 :: rest)
                (childFor (arrGet xs n) (segToNat k2).isSome) v
                (hchild (arrGet xs n))
              cases hres : setGoE (childFor (arrGet xs n) (segToNat k2).isSome)
                  (k2 :: rest) v with
              | error e' => rw [hres] at ih; simp [isOkE] at ih
              | ok w =>
                  show isOkE (do
                    let w' ← setGoE (childFor (arrGet xs n) (segToNat k2).isSome)
                      (k2 :: rest) v
                    accessE (vArr xs) (vArr (arrSet xs n w'))) = true
                  rw [hres]
                  rfl
      | vObj fs =>
          have ih := setGoE_ok (k2 :: rest)
            (childFor (objGet fs k) (segToNat k2).isSome) v
            (hchild (objGet fs k))
          cases hres : setGoE (childFor (objGet fs k) (segToNat k2).isSome)
              (k2 :: rest) v with
          | error e' => rw [hres] at ih; simp [isOkE] at ih
          | ok w =>
              show isOkE (do
                let w' ← setGoE (childFor (objGet fs k) (segToNat k2).isSome)
                  (k2 :: rest) v
                accessE (vObj fs) (vObj (objSet fs k w'))) = true
              rw [hres]
              rfl
      | vUndef => exact absurd hc (by simp [isNullish])
      | vNull => exact absurd hc (by simp [isNullish])
      | vBool b => rfl
      | vNum q => rfl
      | vStr s => rfl

theorem unsetGoE_ok : ∀ (parts : List String) (cur : Value),
    cur.isNullish = false → isOkE (unsetGoE cur parts) = true
  | [], cur, _ => rfl
  | [k], cur, hc => by
      cases cur with
      | vArr xs =>
          have e : unsetGoE (vArr xs) [k]
              = (match segToNat k with
                 | some n =>
                     accessE (vArr xs)
                       (vArr (if n < xs.length then arrSet xs n vUndef else xs))
                 | none => .ok (vArr xs)) := rfl
          rw [e]
          cases hk : segToNat k with
          | none => rfl
          | some n => rfl
      | vObj fs => rfl
      | vUndef => exact absurd hc (by simp [isNullish])
      | vNull => exact absurd hc (by simp [isNullish])
      | vBool b => rfl
      | vNum q => rfl
      | vStr s => rfl
  | part :: p2 :: rest, cur, hc => by
      cases cur with
      | vUndef => exact absurd hc (by simp [isNullish])
      | vNull => exact absurd hc (by simp [isNullish])
      | vBool b => rfl
      | vNum q => rfl
      | vStr s => rfl
      | vObj fs =>
          have e : unsetGoE (vObj fs) (part :: p2 :: rest)
              = (if (jsMember (vObj fs) part).isNullish
                    || !(jsMember (vObj fs) part).typeofObject
                 then .ok (vObj fs)
                 else do
                   let w ← unsetGoE (jsMember (vObj fs) part) (p2 :: rest)
                   accessE (vObj fs) (vObj (objSet fs part w))) := rfl
          rw [e]
          by_cases hguard : ((jsMember (vObj fs) part).isNullish
              || !(jsMember (vObj fs) part).typeofObject) = true
          · rw [if_pos hguard]
            rfl
          · rw [if_neg hguard]
            have hnn : (jsMember (vObj fs) part).isNullish = false :=
              (Bool.or_eq_false_iff.mp (Bool.eq_false_iff.mpr hguard)).1
            have ih := unsetGoE_ok (p2 :: rest) (jsMember (vObj fs) part) hnn
            cases hres : unsetGoE (jsMember (vObj fs) part) (p2 :: rest) with
            | error e' => rw [hres] at ih; simp [isOkE] at ih
            | ok w => rfl
      | vArr xs =>
          have e : unsetGoE (vArr xs) (part :: p2 :: rest)
              = (if (jsMember (vArr xs) part).isNullish
                    || !(jsMember (vArr xs) part).typeofObject
                 then .ok (vArr xs)
                 else match canonIndex part with
                      | some n => do
                          let w ← unsetGoE (jsMember (vArr xs) part) (p2 :: rest)
                          accessE (vArr xs) (vArr (arrSet xs n w))
                      | none => .ok (vArr xs)) := rfl
          rw [e]
          by_cases hguard : ((jsMember (vArr xs) part).isNullish
              || !(jsMember (vArr xs) part).typeofObject) = true
          · rw [if_pos hguard]
            rfl
          · rw [if_neg hguard]
            have hnn : (jsMember (vArr xs) part).isNullish = false :=
              (Bool.or_eq_false_iff.mp (Bool.eq_false_iff.mpr hguard)).1
            have ih := unsetGoE_ok (p2 :: rest) (jsMember (vArr xs) part) hnn
            cases hci : canonIndex part with
            | none => rfl
            | some n =>
                cases hres : unsetGoE (jsMember (vArr xs) part) (p2 :: rest) with
                | error e' => rw [hres] at ih; simp [isOkE] at ih
                | ok w => rfl

/-- The three path accessors return a normal (`Except.ok`) result on every
tree and every path string. -/
def pathCodecTotal : Prop :=
  ∀ (t : Value) (p : String) (v : Value),
    isOkE (getByPathE t p) = true ∧
    isOkE (setByPathE t p v) = true ∧
    isOkE (unsetByPathE t p) = true

/-- C9 counterexample, proving the claim's negation: for every tree and
every path string — malformed or not — all three path accessors return a
normal result (`Except.ok`); no thrown exception ever propagates from the
path-codec boundary for a path string. -/
theorem formora_c9_counterexample : pathCodecTotal := by
  intro t p v
  refine ⟨?_, ?_, ?_⟩
  · rw [getByPathE]
    by_cases h1 : t.isNullish = true
    · rw [if_pos h1]
      rfl
    · rw [if_neg h1]
      by_cases h2 : p = ""
      · rw [if_pos h2]
        rfl
      · rw [if_neg h2]
        by_cases h3 : hasDot p = false
        · rw [if_pos h3]
          rw [accessE, if_neg h1]
          rfl
        · rw [if_neg h3]
          exact getPartsE_ok (splitPath p) t
  · rw [setByPathE]
    by_cases h2 : p = ""
    · rw [if_pos h2]
      rfl
    · rw [if_neg h2]
      by_cases h3 : hasDot p = false
      · rw [if_pos h3]
        rfl
      · rw [if_neg h3]
        exact setGoE_ok (splitPath p) (vObj (spreadFields t)) v rfl
  · rw [unsetByPathE]
    by_cases h1 : t.isNullish = true
    · rw [if_pos h1]
      rfl
    · rw [if_neg h1]
      by_cases h2 : p = ""
      · rw [if_pos h2]
        rfl
      · rw [if_neg h2]
        exact unsetGoE_ok (splitPath p) t (Bool.not_eq_true _ ▸
          Bool.eq_false_iff.mpr h1)

/-- C9 amended: programming misuse through a malformed path string does
not propagate as a thrown exception at the path-codec boundary; the
accessors absorb it and return normal results — `get` yields `undefined`
for the empty path and treats a bracket segment as an unresolvable
literal key, `set`/`unset` return the tree (unchanged for the empty
path). -/
theorem formora_c9_amended (t : Value) (v : Value) :
    getByPath t "" = vUndef ∧
    setByPath t "" v = t ∧
    unsetByPath t "" = t ∧
    getByPathE (vObj []) "a[0].b" = .ok vUndef ∧
    isOkE (setByPathE t "a[0].b" v) = true := by
  refine ⟨?_, rfl, ?_, rfl, ?_⟩
  · rw [getByPath]
    by_cases h1 : t.isNullish = true
    · rw [if_pos h1]
    · rw [if_neg h1, if_pos rfl]
  · rw [unsetByPath]
    by_cases h1 : t.isNullish = true
    · rw [if_pos h1]
    · rw [if_neg h1, if_pos rfl]
  · rw [setByPathE, if_neg (by decide), if_neg (by decide)]
    exact setGoE_ok (splitPath "a[0].b") (vObj (spreadFields t)) v rfl

def c2BlockConfig : EngineConfig := ⟨[("email", {})], 0, true, vObj []⟩

def c2BlockState : EngineState :=
  { emptyState with
      values := vObj [("email", vStr "a")],
      validating := vObj [("email", vBool true)] }

/-- C2 counterexample: with `blockSubmitWhileValidating` (the default) on
and a validating flag set, a submit invocation calls `onInvalid` with the
current — here empty — error tree without iterating any registered path,
even though the submit-time collection over all registered paths is
empty, i.e. a submit the claim classifies as valid (and says must call
`onValid`) calls `onInvalid` instead. -/
theorem formora_c2_counterexample :
    (handleSubmit c2BlockConfig c2BlockState).2
        = SubmitOutcome.calledOnInvalid (vObj []) ∧
    (collectSubmitErrors c2BlockConfig c2BlockState).2 = vObj [] ∧
    specSubmitErrors c2BlockConfig c2BlockState.values = vObj [] :=
  ⟨rfl, rfl, rfl⟩

/-- Overlapping dotted registrations: `"a.b"` is registered (required,
with an async rule) before `"a"` (required), and both sync-fail on the
empty values tree. -/
def c2OverlapConfig : EngineConfig :=
  ⟨[("a.b", { required := some (.withMsg "b required"),
              validateAsync := some (fun _ _ => some "async ran") }),
    ("a", { required := some (.withMsg "a required") })], 0, true, vObj []⟩

def c2OverlapState : EngineState := emptyState

/-- C2 amended: at most one of the two callbacks is called per submit
invocation.  When blocked (flag on and some field validating — the
counterexample), `onInvalid` receives the pre-existing error tree and
nothing is iterated.  Otherwise the handler iterates every registered
path, runs sync rules first into a fresh tree, then for every path that
owns an async rule runs it immediately (no debounce consulted) and awaits
it unless the accumulated tree is already truthy at that path, and
decides from the collected tree: `onInvalid` with it when it has keys,
else `onValid` with the current values exactly once (first conjunct).
When the registered paths are flat and pairwise distinct, the
truthy-at-path test coincides with "this path passed sync" and the
collected tree equals the claim's per-path semantics (second conjunct);
with overlapping dotted registrations it does not: registering `"a.b"`
then `"a"`, both sync-failing, the later parent-level write clobbers the
nested sync error, the lookup at `"a.b"` then sees nothing, and the async
rule runs for the sync-failing path `"a.b"`, leaving its async message
where the per-path description requires the sync error (remaining
conjuncts). -/
theorem formora_c2_submit_decision (cfg : EngineConfig) (st : EngineState)
    (hnb : ¬(cfg.blockSubmitWhileValidating = true ∧
      hasAnyTrue st.validating = true)) :
    ((handleSubmit cfg st).2
      = (if hasKeys (collectSubmitErrors cfg st).2 = true
         then SubmitOutcome.calledOnInvalid (collectSubmitErrors cfg st).2
         else SubmitOutcome.calledOnValid st.values)) ∧
    ((∀ j ∈ cfg.rulesMap.map Prod.fst, FlatKey j) →
      (cfg.rulesMap.map Prod.fst).Nodup →
      (collectSubmitErrors cfg st).2 = specSubmitErrors cfg st.values) ∧
    jsTruthyMsg (getFieldError "a.b" c2OverlapState.values
      c2OverlapConfig.rulesMap) = true ∧
    (collectSubmitErrors c2OverlapConfig c2OverlapState).2
      = vObj [("a", vObj [("b", vStr "async ran")])] ∧
    specSubmitErrors c2OverlapConfig c2OverlapState.values
      = vObj [("a", vStr "a required")] ∧
    (collectSubmitErrors c2OverlapConfig c2OverlapState).2
      ≠ specSubmitErrors c2OverlapConfig c2OverlapState.values := by
  refine ⟨?_, fun hf hnd => collectSubmitErrors_eq_spec cfg st hf hnd,
    rfl, rfl, rfl, ?_⟩
  · have hv1 : (touchAllRegisteredFields cfg
        { st with submitCount := st.submitCount + 1 }).validating
        = st.validating := rfl
    have hb : ¬((cfg.blockSubmitWhileValidating
        && hasAnyTrue (touchAllRegisteredFields cfg
          { st with submitCount := st.submitCount + 1 }).validating) = true) := by
      rw [hv1, Bool.and_eq_true]
      exact hnb
    unfold handleSubmit
    rw [if_neg hb]
    dsimp only
    have hcoll : (collectSubmitErrors cfg (touchAllRegisteredFields cfg
        { st with submitCount := st.submitCount + 1 })).2
        = (collectSubmitErrors cfg st).2 :=
      collectSubmitErrors_tree_eq cfg _ st rfl
    rw [hcoll]
    have hv2 : (collectSubmitErrors cfg (touchAllRegisteredFields cfg
        { st with submitCount := st.submitCount + 1 })).1.values
        = st.values :=
      collectAsyncPhase_state_values cfg _ _ _ _
    by_cases hk : hasKeys (collectSubmitErrors cfg st).2 = true
    · rw [if_pos hk, if_pos hk]
    · rw [if_neg hk, if_neg hk]
      exact congrArg SubmitOutcome.calledOnValid hv2
  · intro h
    rw [show (collectSubmitErrors c2OverlapConfig c2OverlapState).2
        = vObj [("a", vObj [("b", vStr "async ran")])] from rfl,
      show specSubmitErrors c2OverlapConfig c2OverlapState.values
        = vObj [("a", vStr "a required")] from rfl] at h
    injection h with h1
    injection h1 with h2 h3
    injection h2 with h4 h5
    exact Value.noConfusion h5

def c2OkConfig : EngineConfig :=
  ⟨[("email", { validateAsync := some (fun _ _ => some "taken") })], 25, true,
    vObj []⟩

def c2OkState : EngineState :=
  { emptyState with values := vObj [("email", vStr "a")] }

/-- Witness for the amended C2 on a concrete non-blocked submit whose
only failure is an async rule. -/
theorem formora_c2_witness :
    ((handleSubmit c2OkConfig c2OkState).2
      = (if hasKeys (collectSubmitErrors c2OkConfig c2OkState).2 = true
         then SubmitOutcome.calledOnInvalid
           (collectSubmitErrors c2OkConfig c2OkState).2
         else SubmitOutcome.calledOnValid c2OkState.values)) ∧
    (collectSubmitErrors c2OkConfig c2OkState).2
      = specSubmitErrors c2OkConfig c2OkState.values ∧
    (collectSubmitErrors c2OkConfig c2OkState).2
      = vObj [("email", vStr "taken")] :=
  ⟨(formora_c2_submit_decision c2OkConfig c2OkState (by decide)).1,
   (formora_c2_submit_decision c2OkConfig c2OkState (by decide)).2.1
     (by decide) (by decide), rfl⟩

/-- C8 amended: the codec accepts only plain dot form; a bracket segment
such as `a[0]` is treated as a literal map key (read and written as the
own property named `a[0]`), while in dot form a numeric segment indexes
an array; the two forms address different locations. -/
theorem formora_c8_amended (xs : List Value) (w : Value)
    (fs : List (String × Value)) :
    getByPath (vObj (("a[0]", w) :: fs)) "a[0]" = w ∧
    getByPath (vObj [("a", vArr xs)]) "a.0" = arrGet xs 0 ∧
    setByPath (vObj fs) "a[0]" w = vObj (objSet fs "a[0]" w) := by
  refine ⟨?_, ?_, rfl⟩
  · simp [getByPath, isNullish, hasDot, jsMember, objGet]
  · rfl

end Formora
